import Mathlib

/-!
# Verification of the flashwatch ingest–decode–match pipeline

A shallow embedding, translated from the Rust sources, of the parts of the
flashwatch repository that the verified properties speak about:

* `src/decode.rs` — the raw-transaction decoder and its minimal RLP decoder
  (`decode_raw_tx`, `decode_rlp_list`, `decode_rlp_item`, the label and
  selector tables);
* `src/rules.rs` — the rule engine (`RuleEngine::check`, `matches_rule`)
  with its cooldown and global rate-limit state;
* `src/stream.rs` / `src/serve.rs` / `src/alert.rs` — the frame codec
  (`decode_message`), the enrichment of a flashblock JSON value
  (`enrich_flashblock`), and the reconnect loop of the streaming client;
* `src/store.rs` — the query-parameter parser (`AlertQuery::from_params`,
  `parse_duration_secs`).

Modelling conventions:

* Machine integers are `Nat` with explicit wrap-around (`% 2^64` for
  `usize`/`u64`, `% 2^128` for `u128`), matching release-mode (two's
  complement wrapping) Rust arithmetic; points where the Rust code would
  *panic* (out-of-range slice indexing, splitting a `str` off a UTF-8 char
  boundary) are made explicit through the `PResult` type below.
* Rust `f64` values (`value_eth`, `min_eth`) are modelled as rationals; the
  code only ever forms them by the exact formula `wei / 10^18` and compares
  them, which the rational model expresses.
* Rust `&str`/`String` values are lists of unicode scalar values
  (`List Char`); byte positions are taken through the UTF-8 size of each
  char, exactly as Rust indexes strings by bytes.
* `std::time::Instant` values are rationals (seconds); `Instant` is
  monotone, which theorems assume as a hypothesis on call sequences.
* `HashMap` is an association list observed only through lookup; `insert`
  prepends, which has the same lookup behaviour as replacement.
-/

namespace Flashwatch

/-- Result of running a piece of Rust code that may panic, may return `None`,
or may return `Some a`.  `.panic` marks control flow that the Rust program
aborts on (index out of bounds, arithmetic overflow in debug builds). -/
inductive PResult (A : Type) where
  | panic : PResult A
  | none : PResult A
  | some : A → PResult A
deriving DecidableEq, Repr

/-- Map over the success value of a `PResult`. -/
def PResult.map {A B : Type} (f : A → B) : PResult A → PResult B
  | .panic => .panic
  | .none => .none
  | .some a => .some (f a)

/-- `usize`/`u64` wrap-around (64-bit target). -/
def wrap64 (n : Nat) : Nat := n % (2 ^ 64)

/-- `u128` wrap-around. -/
def wrap128 (n : Nat) : Nat := n % (2 ^ 128)

/-! ## UTF-8 and char/string helpers (Rust `str` semantics) -/

/-- The UTF-8 byte size of a unicode scalar value (Rust `char::len_utf8`). -/
def charUtf8Size (c : Char) : Nat :=
  if c.toNat < 128 then 1
  else if c.toNat < 2048 then 2
  else if c.toNat < 65536 then 3
  else 4

/-- Rust `str::len`: the UTF-8 byte length of a string. -/
def strByteLen (s : List Char) : Nat := (s.map charUtf8Size).sum

/-- The UTF-8 bytes of one scalar value (value-level, via `/` and `%`). -/
def charUtf8Bytes (c : Char) : List Nat :=
  let n := c.toNat
  if n < 128 then [n]
  else if n < 2048 then [192 + n / 64, 128 + n % 64]
  else if n < 65536 then [224 + n / 4096, 128 + (n / 64) % 64, 128 + n % 64]
  else [240 + n / 262144, 128 + (n / 4096) % 64, 128 + (n / 64) % 64, 128 + n % 64]

/-- UTF-8 encoding of a string. -/
def utf8Encode (s : List Char) : List Nat := (s.map charUtf8Bytes).flatten

/-- A UTF-8 continuation byte. -/
def isCont (b : Nat) : Bool := 128 ≤ b && b < 192

/-- UTF-8 decoding (Rust `str::from_utf8` / `String::from_utf8`): rejects
overlong forms, surrogates, values above `0x10FFFF`, and truncated
sequences, exactly as Rust's validator does. -/
def utf8Decode : List Nat → Option (List Char)
  | [] => Option.some []
  | b :: rest =>
    if b < 128 then
      (utf8Decode rest).map (fun cs => Char.ofNat b :: cs)
    else if 194 ≤ b ∧ b ≤ 223 then
      match rest with
      | b1 :: r =>
        if isCont b1 then
          (utf8Decode r).map (fun cs => Char.ofNat ((b - 192) * 64 + (b1 - 128)) :: cs)
        else Option.none
      | [] => Option.none
    else if 224 ≤ b ∧ b ≤ 239 then
      match rest with
      | b1 :: b2 :: r =>
        let v := (b - 224) * 4096 + (b1 - 128) * 64 + (b2 - 128)
        if isCont b1 ∧ isCont b2 ∧ 2048 ≤ v ∧ ¬ (55296 ≤ v ∧ v < 57344) then
          (utf8Decode r).map (fun cs => Char.ofNat v :: cs)
        else Option.none
      | _ => Option.none
    else if 240 ≤ b ∧ b ≤ 244 then
      match rest with
      | b1 :: b2 :: b3 :: r =>
        let v := (b - 240) * 262144 + (b1 - 128) * 4096 + (b2 - 128) * 64 + (b3 - 128)
        if isCont b1 ∧ isCont b2 ∧ isCont b3 ∧ 65536 ≤ v ∧ v ≤ 1114111 then
          (utf8Decode r).map (fun cs => Char.ofNat v :: cs)
        else Option.none
      | _ => Option.none
    else Option.none
/-- The Unicode `White_Space` code points (Rust `char::is_whitespace`). -/
def isRustWhitespace (c : Char) : Bool :=
  c.toNat ∈ [9, 10, 11, 12, 13, 32, 133, 160, 5760, 8192, 8193, 8194, 8195,
    8196, 8197, 8198, 8199, 8200, 8201, 8202, 8232, 8233, 8239, 8287, 12288]

/-- Rust `str::trim_start`. -/
def trimStart (s : List Char) : List Char := s.dropWhile isRustWhitespace

/-- Rust `str::trim_end`. -/
def trimEnd (s : List Char) : List Char := (trimStart s.reverse).reverse

/-- Rust `str::trim`. -/
def rustTrim (s : List Char) : List Char := trimEnd (trimStart s)

/-- ASCII lowercasing of one char (`u8::to_ascii_lowercase`); on the hex and
category strings this code applies it to, it coincides with Rust's Unicode
`to_lowercase`. -/
def asciiLower (c : Char) : Char :=
  if 65 ≤ c.toNat ∧ c.toNat ≤ 90 then Char.ofNat (c.toNat + 32) else c

/-- Lowercase a string (ASCII range). -/
def strLower (s : List Char) : List Char := s.map asciiLower

/-- Rust `str::eq_ignore_ascii_case`. -/
def eqIgnoreAsciiCase (a b : List Char) : Bool := strLower a = strLower b

/-- Hex digit value (`hex::decode` accepts both cases). -/
def hexDigit (c : Char) : Option Nat :=
  if 48 ≤ c.toNat ∧ c.toNat ≤ 57 then Option.some (c.toNat - 48)
  else if 97 ≤ c.toNat ∧ c.toNat ≤ 102 then Option.some (c.toNat - 87)
  else if 65 ≤ c.toNat ∧ c.toNat ≤ 70 then Option.some (c.toNat - 55)
  else Option.none

/-- `hex::decode`: even-length hex text to bytes, `none` on a bad digit or
odd length. -/
def hexDecode : List Char → Option (List Nat)
  | [] => Option.some []
  | [_] => Option.none
  | c1 :: c2 :: rest => do
    let h ← hexDigit c1
    let l ← hexDigit c2
    let t ← hexDecode rest
    pure ((h * 16 + l) :: t)

/-- One lowercase hex digit char (callers pass `n < 16`). -/
def hexChar (n : Nat) : Char :=
  if n < 10 then Char.ofNat (48 + n) else Char.ofNat (87 + n)

/-- `hex::encode`: bytes to lowercase hex text. -/
def hexEncode (bs : List Nat) : List Char :=
  (bs.map (fun b => [hexChar ((b / 16) % 16), hexChar (b % 16)])).flatten

/-! ## `src/decode.rs` — labels, selectors, RLP, `decode_raw_tx` -/

/-- `enum Category` (serde `rename_all = "lowercase"`). -/
inductive Category where
  | dex | bridge | token | lending | nft | system | unknown
deriving DecidableEq, Repr

/-- The serde serialization of a `Category` (its lowercase name); the code's
`format!("{:?}", category).to_lowercase()` produces the same string. -/
def Category.serdeStr : Category → String
  | .dex => "dex"
  | .bridge => "bridge"
  | .token => "token"
  | .lending => "lending"
  | .nft => "nft"
  | .system => "system"
  | .unknown => "unknown"

/-- `struct AddressLabel`. -/
structure AddressLabel where
  name : String
  category : Category
deriving DecidableEq, Repr

/-- `known_addresses()` — the compile-time label table of `src/decode.rs`. -/
def known_addresses : List (String × AddressLabel) :=
  [ ("0x2626664c2603336e57b271c5c0b26f421741e481", ⟨"Uniswap V3 Router", .dex⟩),
    ("0x3fc91a3afd70395cd496c647d5a6cc9d4b2b7fad", ⟨"Uniswap Universal Router", .dex⟩),
    ("0xcf77a3ba9a5ca399b7c97c74d54e5b1beb874e43", ⟨"Aerodrome Router", .dex⟩),
    ("0x6cb442acf35158d5eda88fe602221b67b400be3e", ⟨"Aerodrome V2 Router", .dex⟩),
    ("0x327df1e6de05895d2ab08513aadd9313fe505d86", ⟨"BaseSwap Router", .dex⟩),
    ("0x1b8eea9315be495187d873da7773a874545d9d48", ⟨"SushiSwap Router", .dex⟩),
    ("0xd9aac140860e5b0abd5e1d8a3b3a39e09cccc517", ⟨"Odos Router", .dex⟩),
    ("0x4200000000000000000000000000000000000010", ⟨"L2 Standard Bridge", .bridge⟩),
    ("0x4200000000000000000000000000000000000007", ⟨"L2 Cross Domain Messenger", .bridge⟩),
    ("0x3154cf16ccdb4c6d922629664174b904d80f2c35", ⟨"Base Bridge", .bridge⟩),
    ("0xaf28bcb48c40dbc86f52d459a6562f658fc94b1e", ⟨"Stargate Bridge", .bridge⟩),
    ("0x1a44076050125825900e736c501f859c50fe728c", ⟨"LayerZero Endpoint", .bridge⟩),
    ("0x833589fcd6edb6e08f4c7c32d4f71b54bda02913", ⟨"USDC", .token⟩),
    ("0x50c5725949a6f0c72e6c4a641f24049a917db0cb", ⟨"DAI", .token⟩),
    ("0x4200000000000000000000000000000000000006", ⟨"WETH", .token⟩),
    ("0x2ae3f1ec7f1f5012cfeab0185bfc7aa3cf0dec22", ⟨"cbETH", .token⟩),
    ("0xd9aaec86b65d86f6a7b5b1b0c42ffa531710b6ca", ⟨"USDbC", .token⟩),
    ("0xb6fe221fe9eef5aba221c348ba20a1bf5e73624c", ⟨"rETH", .token⟩),
    ("0xa238dd80c259a72e81d7e4664a9801593f98d1c5", ⟨"Aave V3 Pool", .lending⟩),
    ("0x9c4ec768c28520b50860ea7a15bd7213a9ff58bf", ⟨"Compound V3 USDC", .lending⟩),
    ("0x46e6b214b524310239732d51387075e0e70970bf", ⟨"Moonwell", .lending⟩),
    ("0x00000000000000adc04c56bf30ac9d3c0aaf14dc", ⟨"Seaport 1.5", .nft⟩),
    ("0x0000000000000068f116a894984e2db1123eb395", ⟨"Seaport 1.6", .nft⟩),
    ("0x4200000000000000000000000000000000000015", ⟨"L1Block", .system⟩),
    ("0x4200000000000000000000000000000000000011", ⟨"Sequencer Fee Vault", .system⟩),
    ("0x420000000000000000000000000000000000001a", ⟨"Base Fee Vault", .system⟩),
    ("0xdeaddeaddeaddeaddeaddeaddeaddeaddead0001", ⟨"L1 Attributes Depositor", .system⟩) ]

/-- `known_selectors()` — the compile-time 4-byte selector table. -/
def known_selectors : List (List Nat × String) :=
  [ ([169, 5, 156, 187], "transfer"),
    ([35, 184, 114, 221], "transferFrom"),
    ([9, 94, 167, 179], "approve"),
    ([53, 147, 86, 76], "execute (Universal Router)"),
    ([56, 237, 23, 57], "swapExactTokensForTokens"),
    ([127, 243, 106, 181], "swapExactETHForTokens"),
    ([24, 203, 175, 229], "swapExactTokensForETH"),
    ([90, 228, 1, 220], "multicall"),
    ([172, 150, 80, 216], "multicall (v2)"),
    ([4, 228, 90, 175], "exactInputSingle"),
    ([184, 88, 24, 63], "exactInput"),
    ([65, 75, 243, 137], "exactInputSingle (v3)"),
    ([182, 249, 222, 149], "swapExactETHForTokens (fee)"),
    ([202, 200, 142, 169], "swapExactTokensForTokens (Aero)"),
    ([50, 183, 0, 109], "depositETHTo"),
    ([163, 167, 149, 72], "depositERC20To"),
    ([97, 123, 160, 55], "supply (Aave)"),
    ([105, 50, 141, 236], "withdraw (Aave)"),
    ([197, 235, 234, 236], "borrow (Aave)"),
    ([87, 58, 222, 129], "repay (Aave)"),
    ([242, 185, 253, 184], "supply (Compound)"),
    ([251, 15, 62, 225], "fulfillBasicOrder (Seaport)"),
    ([135, 32, 27, 65], "fulfillOrder (Seaport)"),
    ([66, 132, 46, 14], "safeTransferFrom (ERC721)"),
    ([208, 227, 13, 176], "deposit (wrap ETH)"),
    ([46, 26, 125, 77], "withdraw (unwrap ETH)") ]

/-- `struct DecodedTx`.  `from` and `to` are spelled `fromAddr` and
`toAddr` (reserved words in Lean). -/
structure DecodedTx where
  hash : Option String
  fromAddr : Option String
  toAddr : Option String
  to_label : Option AddressLabel
  value_wei : Nat
  value_eth : ℚ
  action : Option String
  category : Category
  gas_used : Option Nat
deriving DecidableEq, Repr

/-- `bytes_to_usize` — big-endian fold with 64-bit wrap-around
(`result << 8 | b` discards high bits). -/
def bytes_to_usize (bytes : List Nat) : Nat :=
  bytes.foldl (fun result b => wrap64 (result * 256 + b)) 0

/-- `bytes_to_u128` — big-endian fold with 128-bit wrap-around. -/
def bytes_to_u128 (bytes : List Nat) : Nat :=
  bytes.foldl (fun result b => wrap128 (result * 256 + b)) 0

/-- `decode_rlp_item` — one RLP item: the item's bytes and the total bytes
consumed.  Arithmetic on the decoded length is 64-bit wrapping (release
build); the final slice `&data[1 + len_of_len..1 + len_of_len + len]`
panics when the wrapped end lands before the start, which happens for
oversized length prefixes such as `0xbf 0xff×8` (see the safety analysis
below).  The slice's other panic condition, end beyond `data.len()`, is
excluded by the `data.len() < total` check just before it. -/
def decode_rlp_item (data : List Nat) : PResult (List Nat × Nat) :=
  match data with
  | [] => .none
  | prefixByte :: _ =>
    if prefixByte < 128 then
      .some (data.take 1, 1)
    else if prefixByte ≤ 183 then
      let len := prefixByte - 128
      if data.length < 1 + len then .none
      else .some ((data.drop 1).take len, 1 + len)
    else if prefixByte ≤ 191 then
      let lenOfLen := prefixByte - 183
      if data.length < 1 + lenOfLen then .none
      else
        let len := bytes_to_usize ((data.drop 1).take lenOfLen)
        let total := wrap64 (1 + lenOfLen + len)
        if data.length < total then .none
        else if total < 1 + lenOfLen then .panic
        else .some ((data.drop (1 + lenOfLen)).take (total - (1 + lenOfLen)), total)
    else if prefixByte ≤ 247 then
      let len := prefixByte - 192
      if data.length < 1 + len then .none
      else .some ((data.drop 1).take len, 1 + len)
    else
      let lenOfLen := prefixByte - 247
      if data.length < 1 + lenOfLen then .none
      else
        let len := bytes_to_usize ((data.drop 1).take lenOfLen)
        let total := wrap64 (1 + lenOfLen + len)
        if data.length < total then .none
        else if total < 1 + lenOfLen then .panic
        else .some ((data.drop (1 + lenOfLen)).take (total - (1 + lenOfLen)), total)

/-- Whenever `decode_rlp_item` succeeds it consumed at least one byte
(needed for the termination of the list-decoding loop). -/
theorem decode_rlp_item_consumed_pos (data : List Nat) (item : List Nat) (c : Nat)
    (h : decode_rlp_item data = .some (item, c)) : 1 ≤ c := by
  unfold decode_rlp_item at h
  rcases data with _ | ⟨b, rest⟩
  · simp at h
  · simp only at h
    repeat' split at h
    all_goals simp_all
    all_goals omega

/-- The `while pos < payload.len()` loop of `decode_rlp_list`, expressed on
the remaining suffix of the payload.  The loop always advances (each
successful `decode_rlp_item` consumes at least one byte,
`decode_rlp_item_consumed_pos`), so `payload.length` steps of fuel always
suffice; `rlpListLoopFuel_irrel` below shows the fuel bound is never the
deciding factor.  The fuel keeps the recursion structural, so that the
definition evaluates inside the kernel. -/
def rlpListLoopFuel : Nat → List Nat → PResult (List (List Nat))
  | _, [] => .some []
  | 0, _ :: _ => .panic
  | fuel + 1, payload => 
    match decode_rlp_item payload with
    | .panic => .panic
    | .none => .none
    | .some (item, consumed) =>
      match rlpListLoopFuel fuel (payload.drop consumed) with
      | .panic => .panic
      | .none => .none
      | .some items => .some (item :: items)

/-- Any fuel of at least `payload.length` computes the same result: the
fuel-exhausted arm of `rlpListLoopFuel` is unreachable from
`rlpListLoop`. -/
theorem rlpListLoopFuel_irrel (fuel : Nat) :
    ∀ (fuel' : Nat) (payload : List Nat), payload.length ≤ fuel → payload.length ≤ fuel' →
      rlpListLoopFuel fuel payload = rlpListLoopFuel fuel' payload := by
  induction fuel with
  | zero =>
    intro fuel' payload h _
    have : payload = [] := List.length_eq_zero.mp (by omega)
    subst this
    cases fuel' <;> rfl
  | succ f ih =>
    intro fuel' payload h h'
    cases payload with
    | nil => cases fuel' <;> rfl
    | cons b rest =>
      cases fuel' with
      | zero => simp at h'
      | succ f' =>
        simp only [rlpListLoopFuel]
        cases hitem : decode_rlp_item (b :: rest) with
        | panic => simp only [hitem]
        | none => simp only [hitem]
        | some pair =>
          obtain ⟨item, consumed⟩ := pair
          have hc := decode_rlp_item_consumed_pos (b :: rest) item consumed hitem
          have hlen : ((b :: rest).drop consumed).length ≤ f := by
            simp only [List.length_drop, List.length_cons]
            simp at h
            omega
          have hlen' : ((b :: rest).drop consumed).length ≤ f' := by
            simp only [List.length_drop, List.length_cons]
            simp at h'
            omega
          simp only [hitem, ih f' _ hlen hlen']

/-- The loop entry point: fuel is the payload length. -/
def rlpListLoop (payload : List Nat) : PResult (List (List Nat)) :=
  rlpListLoopFuel payload.length payload

/-- `decode_rlp_list` — decode the top-level RLP list into its items. -/
def decode_rlp_list (data : List Nat) : PResult (List (List Nat)) :=
  match data with
  | [] => .none
  | b0 :: _ =>
    match decode_rlp_item data with
    | .panic => .panic
    | .none => .none
    | .some (payload, _) =>
      if 192 ≤ b0 then rlpListLoop payload
      else .none

/-- The positional `(to, value, data)` selection of `decode_raw_tx`
(the `match tx_type` block; `Option.none` models the early `return None`,
both for the explicit arms and for a failing `items.get(_)?`). -/
def selectFields (tx_type : Nat) (items : List (List Nat)) :
    Option (List Nat × List Nat × List Nat) :=
  if tx_type = 2 ∧ 8 ≤ items.length then do
    pure (← items.get? 5, ← items.get? 6, ← items.get? 7)
  else if tx_type = 1 ∧ 7 ≤ items.length then do
    pure (← items.get? 4, ← items.get? 5, ← items.get? 6)
  else if tx_type = 126 then Option.none
  else if 6 ≤ items.length then do
    pure (← items.get? 3, ← items.get? 4, ← items.get? 5)
  else Option.none

/-- Association-list lookup standing for `HashMap::get`. -/
def tableGet {A : Type} (table : List (String × A)) (key : String) : Option A :=
  (table.find? (fun p => p.1 = key)).map (fun p => p.2)

/-- Selector-table lookup (`selectors.get(&sel)`). -/
def selGet (table : List (List Nat × String)) (key : List Nat) : Option String :=
  (table.find? (fun p => p.1 = key)).map (fun p => p.2)

/-- The tail of `decode_raw_tx` after `(to_bytes, value_bytes, data_bytes)`
have been selected: address formatting and label lookup, value conversion,
selector lookup, the `"ETH transfer"` default, and the category. -/
def finishDecode (to_bytes value_bytes data_bytes : List Nat) : DecodedTx :=
  let to_hex : Option String :=
    if to_bytes.isEmpty then Option.none
    else Option.some (String.mk ('0' :: 'x' :: hexEncode to_bytes))
  let value_wei := bytes_to_u128 value_bytes
  let value_eth : ℚ := (value_wei : ℚ) / (10 ^ 18 : ℚ)
  let to_lower := to_hex.map (fun a => String.mk (strLower a.toList))
  let to_label := to_lower.bind (fun addr => tableGet known_addresses addr)
  let action : Option String :=
    if 4 ≤ data_bytes.length then selGet known_selectors (data_bytes.take 4)
    else if ¬ data_bytes.isEmpty then Option.none
    else if 0 < value_wei then Option.some "ETH transfer"
    else Option.none
  let category := (to_label.map AddressLabel.category).getD .unknown
  { hash := Option.none, fromAddr := Option.none, toAddr := to_hex,
    to_label := to_label, value_wei := value_wei, value_eth := value_eth,
    action := action, category := category, gas_used := Option.none }

/-- Rust `str::strip_prefix("0x").unwrap_or(s)`. -/
def strip0x (s : List Char) : List Char :=
  if s.take 2 = ['0', 'x'] then s.drop 2 else s

/-- `decode_raw_tx` — strip `0x`, hex-decode, split off the type byte,
RLP-decode the payload, select fields by type and build the record. -/
def decode_raw_tx (hex_str : List Char) : PResult DecodedTx :=
  let stripped := strip0x hex_str
  match hexDecode stripped with
  | Option.none => .none
  | Option.some bytes =>
    match bytes with
    | [] => .none
    | b0 :: rest =>
      let tx_type := if b0 ≤ 127 then b0 else 0
      let rlp_bytes := if b0 ≤ 127 then rest else bytes
      match decode_rlp_list rlp_bytes with
      | .panic => .panic
      | .none => .none
      | .some items =>
        match selectFields tx_type items with
        | Option.none => .none
        | Option.some (to_bytes, value_bytes, data_bytes) =>
          .some (finishDecode to_bytes value_bytes data_bytes)

/-! ## `src/rules.rs` — rule configuration, triggers, `RuleEngine` -/

/-- `enum Trigger` (serde tag `kind`, `snake_case`). -/
inductive Trigger where
  | EthTransfer (min_eth : ℚ)
  | Protocol (names : List String) (categories : List String) (min_eth : ℚ)
  | FunctionCall (actions : List String) (min_eth : ℚ)
  | LargeValue (min_eth : ℚ)
  | Address (address : String) (min_eth : ℚ)
deriving DecidableEq, Repr

/-- `struct Rule`. -/
structure Rule where
  name : String
  trigger : Trigger
  webhook : Option String
  cooldown_secs : Option Nat
  enabled : Bool
deriving DecidableEq, Repr

/-- `struct GlobalConfig`. -/
structure GlobalConfig where
  cooldown_secs : Nat
  max_per_minute : Nat
  batch_secs : Nat
  retention_days : Nat
deriving DecidableEq, Repr

/-- `fn default_cooldown()` — the serde default for `cooldown_secs`. -/
def default_cooldown : Nat := 10

/-- `fn default_rate_limit()` — the serde default for `max_per_minute`. -/
def default_rate_limit : Nat := 30

/-- `fn default_retention()` — the serde default for `retention_days`. -/
def default_retention : Nat := 30

/-- `struct RulesConfig`. -/
structure RulesConfig where
  rules : List Rule
  global : GlobalConfig
deriving DecidableEq, Repr

/-- `struct AlertTx` (the flattened projection of a decoded transaction). -/
structure AlertTx where
  fromAddr : Option String
  toAddr : Option String
  to_label : Option String
  value_eth : ℚ
  action : Option String
  category : String
deriving DecidableEq, Repr

/-- The `Debug` rendering of a `Category` ("Dex", "Bridge", …). -/
def Category.debugStr : Category → String
  | .dex => "Dex"
  | .bridge => "Bridge"
  | .token => "Token"
  | .lending => "Lending"
  | .nft => "Nft"
  | .system => "System"
  | .unknown => "Unknown"

/-- `format!("{:?}", category).to_lowercase()` as used by `AlertTx::from`
and the `Protocol` trigger. -/
def categoryLower (c : Category) : String := String.mk (strLower c.debugStr.toList)

/-- `impl From<&DecodedTx> for AlertTx`. -/
def AlertTx.ofDecoded (tx : DecodedTx) : AlertTx :=
  { fromAddr := tx.fromAddr, toAddr := tx.toAddr,
    to_label := tx.to_label.map (fun l => l.name),
    value_eth := tx.value_eth, action := tx.action,
    category := categoryLower tx.category }

/-- `struct Alert`. -/
structure Alert where
  rule_name : String
  block_number : Option Nat
  flashblock_index : Nat
  tx : AlertTx
  timestamp : Nat
deriving DecidableEq, Repr

/-- Rust `str::contains(&str)` — substring containment. -/
def strContainsSub (hay pat : List Char) : Bool :=
  (List.range (hay.length + 1)).any (fun i => pat.isPrefixOf (hay.drop i))

/-- `matches_rule` — evaluate one trigger against a decoded transaction. -/
def matches_rule (trigger : Trigger) (tx : DecodedTx) : Bool :=
  match trigger with
  | .EthTransfer min_eth =>
    decide (min_eth ≤ tx.value_eth) && decide (tx.action = Option.some "ETH transfer")
  | .Protocol names categories min_eth =>
    if tx.value_eth < min_eth then false
    else
      let label_match :=
        if names.isEmpty then true
        else match tx.to_label with
          | Option.none => false
          | Option.some l => names.any (fun n => eqIgnoreAsciiCase l.name.toList n.toList)
      let cat_match :=
        if categories.isEmpty then true
        else
          let cat_str := categoryLower tx.category
          categories.any (fun c => String.mk (strLower c.toList) = cat_str)
      label_match && cat_match
  | .FunctionCall actions min_eth =>
    if tx.value_eth < min_eth then false
    else match tx.action with
      | Option.none => false
      | Option.some a => actions.any (fun act => strContainsSub a.toList act.toList)
  | .LargeValue min_eth => decide (min_eth ≤ tx.value_eth)
  | .Address address min_eth =>
    if tx.value_eth < min_eth then false
    else match tx.toAddr with
      | Option.none => false
      | Option.some t => eqIgnoreAsciiCase t.toList address.toList

/-- `struct RuleEngine` — the config plus the mutable cooldown and
rate-limiting state.  `Instant`s are rationals (seconds); `last_fired` is
the `HashMap` as an association list (insert prepends; lookup sees the
newest binding, as a map replacement would). -/
structure RuleEngine where
  config : RulesConfig
  last_fired : List (String × ℚ)
  fires_this_minute : List ℚ

/-- `RuleEngine::new`. -/
def RuleEngine.new (config : RulesConfig) : RuleEngine :=
  { config := config, last_fired := [], fires_this_minute := [] }

/-- `HashMap::get` on `last_fired`. -/
def lfGet (lf : List (String × ℚ)) (name : String) : Option ℚ :=
  (lf.find? (fun p => p.1 = name)).map (fun p => p.2)

/-- The result of the `for rule in rules` loop inside `check`. -/
structure CheckOut where
  alerts : List Alert
  last_fired : List (String × ℚ)
  fires : List ℚ

/-- The `for rule in &self.config.rules` loop of `RuleEngine::check`:
skip disabled rules; break once the pruned window reaches
`max_per_minute`; skip rules inside their effective cooldown; on a trigger
match record `last_fired`, append to the window and emit an alert. -/
def checkRulesLoop (gc : GlobalConfig) (tx : DecodedTx) (block_number : Option Nat)
    (flashblock_index : Nat) (now : ℚ) (epoch_secs : Nat) :
    List Rule → List (String × ℚ) → List ℚ → CheckOut
  | [], lf, fires => ⟨[], lf, fires⟩
  | rule :: rest, lf, fires =>
    if rule.enabled = false then
      checkRulesLoop gc tx block_number flashblock_index now epoch_secs rest lf fires
    else if gc.max_per_minute ≤ fires.length then
      ⟨[], lf, fires⟩
    else if (match lfGet lf rule.name with
        | Option.some last =>
          decide (now - last < ((rule.cooldown_secs.getD gc.cooldown_secs : Nat) : ℚ))
        | Option.none => false) then
      checkRulesLoop gc tx block_number flashblock_index now epoch_secs rest lf fires
    else if matches_rule rule.trigger tx then
      ⟨{ rule_name := rule.name, block_number := block_number,
         flashblock_index := flashblock_index, tx := AlertTx.ofDecoded tx,
         timestamp := epoch_secs } ::
           (checkRulesLoop gc tx block_number flashblock_index now epoch_secs rest
             ((rule.name, now) :: lf) (fires ++ [now])).alerts,
       (checkRulesLoop gc tx block_number flashblock_index now epoch_secs rest
         ((rule.name, now) :: lf) (fires ++ [now])).last_fired,
       (checkRulesLoop gc tx block_number flashblock_index now epoch_secs rest
         ((rule.name, now) :: lf) (fires ++ [now])).fires⟩
    else
      checkRulesLoop gc tx block_number flashblock_index now epoch_secs rest lf fires

/-- `RuleEngine::check` — prune the 60-second window, then run the rule
loop.  `now` is the monotonic instant (`Instant::now()`), `epoch_secs` the
wall-clock timestamp; both are parameters of the model. -/
def RuleEngine.check (e : RuleEngine) (tx : DecodedTx) (block_number : Option Nat)
    (flashblock_index : Nat) (now : ℚ) (epoch_secs : Nat) : List Alert × RuleEngine :=
  ((checkRulesLoop e.config.global tx block_number flashblock_index now epoch_secs
      e.config.rules e.last_fired
      (e.fires_this_minute.filter (fun t => decide (now - t < 60)))).alerts,
   { config := e.config,
     last_fired := (checkRulesLoop e.config.global tx block_number flashblock_index now
       epoch_secs e.config.rules e.last_fired
       (e.fires_this_minute.filter (fun t => decide (now - t < 60)))).last_fired,
     fires_this_minute := (checkRulesLoop e.config.global tx block_number flashblock_index
       now epoch_secs e.config.rules e.last_fired
       (e.fires_this_minute.filter (fun t => decide (now - t < 60)))).fires })

/-- One `check` call of a call sequence: the transaction and context handed
to the engine, the monotonic instant and the wall-clock timestamp at which
the call happens. -/
structure CallInput where
  tx : DecodedTx
  block_number : Option Nat
  flashblock_index : Nat
  now : ℚ
  epoch_secs : Nat

/-- Run a sequence of `check` calls, collecting each call's instant with
the alerts it emitted. -/
def runCalls (e : RuleEngine) : List CallInput → List (ℚ × List Alert) × RuleEngine
  | [] => ([], e)
  | c :: rest =>
    let (alerts, e') := e.check c.tx c.block_number c.flashblock_index c.now c.epoch_secs
    let (trace, e'') := runCalls e' rest
    ((c.now, alerts) :: trace, e'')

/-! ## `decode_message` — the frame codec of `src/stream.rs` /
`src/serve.rs` / `src/alert.rs` (three identical copies) -/

/-- `decode_message`, parameterised by the brotli decompressor:
`brotli data = some out` models `Decompressor::new(data, 4096)` feeding
`read_to_end` successfully with output bytes `out`, `none` models a
decompression error.  If the input is valid UTF-8 and starts with `{`
after leading whitespace it is returned verbatim; otherwise the
decompressed bytes are returned iff they are valid UTF-8. -/
def decode_message (brotli : List Nat → Option (List Nat)) (data : List Nat) :
    Option (List Char) :=
  let viaBrotli : Option (List Char) :=
    match brotli data with
    | Option.none => Option.none
    | Option.some decompressed => utf8Decode decompressed
  match utf8Decode data with
  | Option.some text =>
    if (trimStart text).take 1 = ['{'] then Option.some text else viaBrotli
  | Option.none => viaBrotli

/-! ## `src/alert.rs` — the reconnect loop of the streaming client -/

/-- One message delivered by `ws.next()`: `err` stands for
`Some(Err(_))` (a transport error), the others for `Some(Ok(msg))` by
frame kind; the end of the event list stands for `None` (stream end). -/
inductive WsEvent where
  | text (bytes : List Nat)
  | binary (bytes : List Nat)
  | ping
  | pong
  | close
  | otherFrame
  | err
deriving DecidableEq, Repr

/-- One connection attempt as the environment presents it: whether the
`connect_async` handshake succeeds, and the events the socket then
yields. -/
structure Attempt where
  handshake : Bool
  events : List WsEvent
deriving DecidableEq, Repr

/-- The `while let Some(Ok(msg)) = ws.next().await` body of
`connect_and_stream`: the session state (engine, counters, printed
output …) is abstract (`St`), updated by `process` on every text or
binary frame — the body only ever `continue`s, it never breaks the loop.
The loop ends at stream end, at the first transport error (the
`while let` pattern stops on `Some(Err(_))`), or at a close frame
(`Message::Close(_) => break`). -/
def sessionLoop {St : Type} (process : List Nat → St → St) : St → List WsEvent → St
  | st, [] => st
  | st, ev :: rest =>
    match ev with
    | .err => st
    | .close => st
    | .text bytes => sessionLoop process (process bytes st) rest
    | .binary bytes => sessionLoop process (process bytes st) rest
    | .ping => sessionLoop process st rest
    | .pong => sessionLoop process st rest
    | .otherFrame => sessionLoop process st rest

/-- `connect_and_stream` — `connect_async(ws_url).await?` propagates a
handshake failure as `Err`; every other way the session ends (stream end,
transport error, close frame) falls through to the final `Ok(())`. -/
def connect_and_stream {St : Type} (process : List Nat → St → St) (st : St)
    (a : Attempt) : Except Unit St :=
  if a.handshake then Except.ok (sessionLoop process st a.events)
  else Except.error ()

/-- Outcome of the reconnect loop on a (finite prefix of a) sequence of
connection attempts: the seconds slept between attempts, the index of the
attempt at which the loop `break`s (`none` when every listed attempt
failed and the loop is still retrying), and the value of `retry_delay`
when the trace ends. -/
structure RunOutcome where
  delays : List Nat
  broke : Option Nat
  retry_delay : Nat
deriving DecidableEq, Repr

/-- The `loop { match connect_and_stream(..) { Ok(()) => break, Err(e) =>
{ sleep(retry_delay); retry_delay = (retry_delay * 2).min(30); } } }` of
`alert::run` (the spawned reader loop of `serve::run` has the same
shape).  `retry_delay` starts at 2 at the call site. -/
def runConnectLoop {St : Type} (process : List Nat → St → St) :
    Nat → St → List Attempt → RunOutcome × St
  | retry_delay, st, [] => (⟨[], Option.none, retry_delay⟩, st)
  | retry_delay, st, a :: rest =>
    match connect_and_stream process st a with
    | Except.ok st' => (⟨[], Option.some 0, retry_delay⟩, st')
    | Except.error _ =>
      let d' := min (retry_delay * 2) 30
      let (o, st') := runConnectLoop process d' st rest
      (⟨retry_delay :: o.delays, o.broke.map (fun i => i + 1), o.retry_delay⟩, st')

/-! ## `src/store.rs` — `AlertQuery::from_params` / `parse_duration_secs` -/

/-- `struct AlertQuery`. -/
structure AlertQuery where
  rule : Option String
  category : Option String
  min_eth : Option ℚ
  since_ts : Option Nat
  limit : Option Nat
deriving DecidableEq, Repr

/-- Rust `u64::from_str` (also used for `usize` on a 64-bit target): an
optional leading `+`, then one or more ASCII digits, rejecting values
that overflow `u64`. -/
def parseU64 (s : List Char) : Option Nat :=
  let digits := match s with
    | '+' :: rest => rest
    | _ => s
  if digits.isEmpty then Option.none
  else if digits.all (fun c => 48 ≤ c.toNat ∧ c.toNat ≤ 57) then
    let n := digits.foldl (fun acc c => acc * 10 + (c.toNat - 48)) 0
    if n < 2 ^ 64 then Option.some n else Option.none
  else Option.none

/-- `u64` wrapping subtraction (`now - secs` in a release build; both
arguments below 2^64). -/
def u64Sub (a b : Nat) : Nat := (a + 2 ^ 64 - b) % 2 ^ 64

/-- `parse_duration_secs` — trim, split one byte before the end
(`s.split_at(s.len() - 1)` panics when that byte index is not a char
boundary, i.e. when the final char is not a single-byte char), parse the
number, scale by the suffix.  The scaling multiplications wrap at 64 bits
(release build). -/
def parse_duration_secs (s : List Char) : PResult Nat :=
  match (rustTrim s).getLast? with
  | Option.none => .none
  | Option.some lastChar =>
    if charUtf8Size lastChar ≠ 1 then .panic
    else
      match parseU64 (rustTrim s).dropLast with
      | Option.none => .none
      | Option.some n =>
        if lastChar = 's' then .some n
        else if lastChar = 'm' then .some (wrap64 (n * 60))
        else if lastChar = 'h' then .some (wrap64 (n * 3600))
        else if lastChar = 'd' then .some (wrap64 (n * 86400))
        else .none

/-- `AlertQuery::from_params`, parameterised by the total `f64` parser
used for `min_eth` (modelled abstractly: its result never panics and no
verified property depends on it) and by the current epoch second `now`
(`SystemTime::now()`; a `u64`, so `now < 2^64`). -/
def AlertQuery.from_params (parseF64 : List Char → Option ℚ)
    (params : List (String × List Char)) (now : Nat) : PResult AlertQuery :=
  match (match tableGet params "last" with
    | Option.none => PResult.some Option.none
    | Option.some v =>
      match parse_duration_secs v with
      | .panic => .panic
      | .none => .some Option.none
      | .some secs => .some (Option.some (u64Sub now secs))) with
  | .panic => .panic
  | .none => .none
  | .some lastOpt =>
    .some
      { rule := (tableGet params "rule").map String.mk,
        category := (tableGet params "category").map String.mk,
        min_eth := (tableGet params "min_eth").bind parseF64,
        since_ts := match lastOpt with
          | Option.some t => Option.some t
          | Option.none => (tableGet params "since").bind parseU64,
        limit := (tableGet params "limit").bind parseU64 }

/-! ## `src/serve.rs` — JSON values and `enrich_flashblock` -/

/-- `serde_json::Value` (numbers as rationals). -/
inductive Json where
  | null : Json
  | bool (b : Bool) : Json
  | num (q : ℚ) : Json
  | str (s : String) : Json
  | arr (elems : List Json) : Json
  | obj (fields : List (String × Json)) : Json

/-- Object field lookup (`Value::get` on an object). -/
def Json.getField (j : Json) (key : String) : Option Json :=
  match j with
  | .obj fields => tableGet fields key
  | _ => Option.none

/-- `Value::pointer("/a/b")`-style traversal over object keys. -/
def jsonPointer (j : Json) : List String → Option Json
  | [] => Option.some j
  | k :: rest => match j.getField k with
    | Option.none => Option.none
    | Option.some j' => jsonPointer j' rest

/-- `Value::as_array`. -/
def Json.asArr (j : Json) : Option (List Json) :=
  match j with
  | .arr elems => Option.some elems
  | _ => Option.none

/-- `Value::as_str`. -/
def Json.asStr (j : Json) : Option String :=
  match j with
  | .str s => Option.some s
  | _ => Option.none

/-- `Value::as_object` (the fields of an object). -/
def Json.asObj (j : Json) : Option (List (String × Json)) :=
  match j with
  | .obj fields => Option.some fields
  | _ => Option.none

/-- Serde serialization of an `Option<String>` field. -/
def Json.ofOptStr : Option String → Json
  | Option.none => .null
  | Option.some s => .str s

/-- Serde serialization of an `AddressLabel`. -/
def jsonOfLabel (l : AddressLabel) : Json :=
  .obj [("name", .str l.name), ("category", .str l.category.serdeStr)]

/-- `serde_json::to_value(&DecodedTx)` — the serialization of a decoded
transaction (field order as declared; `None` becomes `null`). -/
def jsonOfDecodedTx (t : DecodedTx) : Json :=
  .obj [("hash", Json.ofOptStr t.hash),
        ("from", Json.ofOptStr t.fromAddr),
        ("to", Json.ofOptStr t.toAddr),
        ("to_label", match t.to_label with
          | Option.none => .null
          | Option.some l => jsonOfLabel l),
        ("value_wei", .num (t.value_wei : ℚ)),
        ("value_eth", .num t.value_eth),
        ("action", Json.ofOptStr t.action),
        ("category", .str t.category.serdeStr),
        ("gas_used", match t.gas_used with
          | Option.none => .null
          | Option.some g => .num (g : ℚ))]

/-- Take exactly `n` UTF-8 bytes off the front of a string — the Rust
byte slice `&s[..n]`, which panics when `n` is not a char boundary
(callers have already bounded `n` by the byte length). -/
def takeBytes : List Char → Nat → PResult (List Char)
  | _, 0 => .some []
  | [], _ + 1 => .panic
  | c :: cs, n + 1 =>
    if charUtf8Size c ≤ n + 1 then
      match takeBytes cs (n + 1 - charUtf8Size c) with
      | .panic => .panic
      | .none => .panic
      | .some pre => .some (c :: pre)
    else .panic

/-- `&tx_hex[..tx_hex.len().min(40)]` — the raw 40-byte prefix kept for
undecodable entries. -/
def rawPrefix40 (s : List Char) : PResult (List Char) :=
  takeBytes s (min (strByteLen s) 40)

/-- The `for tx_val in txs` loop of `enrich_flashblock`: strings are
decoded (full object on success, `{"raw": <prefix>}` on failure);
non-string entries are skipped (nothing is pushed). -/
def enrichTxLoop : List Json → PResult (List Json)
  | [] => .some []
  | Json.str s :: rest =>
    (match decode_raw_tx s.toList with
     | .panic => .panic
     | .some dtx =>
       (match enrichTxLoop rest with
        | .panic => .panic
        | .none => .none
        | .some ds => .some (jsonOfDecodedTx dtx :: ds))
     | .none =>
       match rawPrefix40 s.toList with
       | .panic => .panic
       | .none => .panic
       | .some pre =>
         (match enrichTxLoop rest with
          | .panic => .panic
          | .none => .none
          | .some ds => .some (Json.obj [("raw", .str (String.mk pre))] :: ds)))
  | _ :: rest => enrichTxLoop rest

/-- Rust `u128::from_str_radix(s, 16)`: an optional leading `+`, then one
or more hex digits, rejecting values that overflow `u128`. -/
def parseHexU128 (s : List Char) : Option Nat :=
  let digits := match s with
    | '+' :: rest => rest
    | _ => s
  if digits.isEmpty then Option.none
  else
    match (digits.mapM hexDigit) with
    | Option.none => Option.none
    | Option.some ds =>
      let n := ds.foldl (fun acc d => acc * 16 + d) 0
      if n < 2 ^ 128 then Option.some n else Option.none

/-- Decimal rendering with four fractional digits — `format!("{:.4}", x)`
with the `f64` modelled as a rational (round to nearest at 4 decimals). -/
def fmtFixed4 (q : ℚ) : String :=
  let m := (round (q * 10000) : ℤ).natAbs
  String.mk ((Nat.repr (m / 10000)).toList ++ '.' ::
    (Nat.repr (m % 10000 + 10000)).toList.drop 1)

/-- The `new_account_balances` loop of `enrich_flashblock`: skip labelled
addresses, hex-parse the balance, keep addresses whose balance exceeds
1.0 in human units. -/
def whaleLoop : List (String × Json) → List Json
  | [] => []
  | (addr, val) :: rest =>
    let addr_lower := String.mk (strLower addr.toList)
    if (tableGet known_addresses addr_lower).isSome then whaleLoop rest
    else
      match val.asStr with
      | Option.none => whaleLoop rest
      | Option.some val_str =>
        match parseHexU128 (strip0x val_str.toList) with
        | Option.none => whaleLoop rest
        | Option.some wei =>
          let eth : ℚ := (wei : ℚ) / (10 ^ 18 : ℚ)
          if 1 < eth then
            Json.obj [("address", .str addr), ("balance_eth", .str (fmtFixed4 eth))]
              :: whaleLoop rest
          else whaleLoop rest

/-- `fb[key] = value` — serde_json index assignment: insert/replace on an
object, a fresh object on `null`, a panic on any other value. -/
def insertField : List (String × Json) → String → Json → List (String × Json)
  | [], k, v => [(k, v)]
  | (k', v') :: rest, k, v =>
    if k' = k then (k, v) :: rest else (k', v') :: insertField rest k v

/-- See `insertField`. -/
def jsonInsert (j : Json) (key : String) (v : Json) : PResult Json :=
  match j with
  | .obj fields => .some (.obj (insertField fields key v))
  | .null => .some (.obj [(key, v)])
  | _ => .panic

/-- `enrich_flashblock` from the parsed `serde_json::Value` on (the
`serde_json::from_str` of the input text and the final `to_string` are
outside the model): decode every string under `diff.transactions`,
compute the whale alerts from `metadata.new_account_balances`, and inject
`_decoded_txs` (always) and `_whale_alerts` (iff non-empty). -/
def enrich_flashblock (fb : Json) : PResult Json :=
  let txs := ((jsonPointer fb ["diff", "transactions"]).bind Json.asArr).getD []
  match enrichTxLoop txs with
  | .panic => .panic
  | .none => .none
  | .some decoded_txs =>
    let balances := ((jsonPointer fb ["metadata", "new_account_balances"]).bind Json.asObj).getD []
    let whale_alerts := whaleLoop balances
    match jsonInsert fb "_decoded_txs" (.arr decoded_txs) with
    | .panic => .panic
    | .none => .none
    | .some fb' =>
      if whale_alerts.isEmpty then .some fb'
      else
        match jsonInsert fb' "_whale_alerts" (.arr whale_alerts) with
        | .panic => .panic
        | .none => .none
        | .some fb'' => .some fb''

/-! ## Shared lemmas -/

/-- A big-endian fold that wraps at every step equals the unwrapped
big-endian fold reduced once at the end. -/
theorem foldl_wrap_be (M : Nat) (bs : List Nat) :
    ∀ i j, i < M → i % M = j % M →
      bs.foldl (fun a b => (a * 256 + b) % M) i =
        (bs.foldl (fun a b => a * 256 + b) j) % M := by
  induction bs with
  | nil =>
    intro i j hi hij
    simpa [Nat.mod_eq_of_lt hi] using hij
  | cons b rest ih =>
    intro i j hi hij
    simp only [List.foldl_cons]
    refine ih ((i * 256 + b) % M) (j * 256 + b) (Nat.mod_lt _ (by omega)) ?_
    rw [Nat.mod_mod_of_dvd _ dvd_rfl]
    exact Nat.ModEq.add_right b (Nat.ModEq.mul_right 256 hij)

/-- `bytes_to_u128` is the big-endian unsigned reading of the bytes,
truncated to 128 bits. -/
theorem bytes_to_u128_eq_be (bs : List Nat) :
    bytes_to_u128 bs = (bs.foldl (fun a b => a * 256 + b) 0) % 2 ^ 128 := by
  have := foldl_wrap_be (2 ^ 128) bs 0 0 (by norm_num) rfl
  simpa [bytes_to_u128, wrap128] using this

/-- A list index below the length is present, and agrees with `getD`. -/
theorem getElem?_eq_some_getD {A : Type} (l : List A) (n : Nat) (d : A)
    (h : n < l.length) : l[n]? = Option.some (l.getD n d) := by
  rw [List.getElem?_eq_getElem h, List.getD_eq_getElem?_getD,
    List.getElem?_eq_getElem h]
  rfl

/-- `selectFields` for EIP-1559 payloads with at least 8 items. -/
theorem selectFields_type2 (items : List (List Nat)) (h : 8 ≤ items.length) :
    selectFields 2 items =
      Option.some (items.getD 5 [], items.getD 6 [], items.getD 7 []) := by
  simp [selectFields, h,
    getElem?_eq_some_getD items 5 [] (by omega),
    getElem?_eq_some_getD items 6 [] (by omega),
    getElem?_eq_some_getD items 7 [] (by omega),
    -List.getD_eq_getElem?_getD]

/-- `selectFields` for access-list payloads with at least 7 items. -/
theorem selectFields_type1 (items : List (List Nat)) (h : 7 ≤ items.length) :
    selectFields 1 items =
      Option.some (items.getD 4 [], items.getD 5 [], items.getD 6 []) := by
  simp [selectFields, h,
    getElem?_eq_some_getD items 4 [] (by omega),
    getElem?_eq_some_getD items 5 [] (by omega),
    getElem?_eq_some_getD items 6 [] (by omega),
    -List.getD_eq_getElem?_getD]

/-- `selectFields` for legacy payloads with at least 6 items. -/
theorem selectFields_legacy (ty : Nat) (items : List (List Nat))
    (h1 : ty ≠ 1) (h2 : ty ≠ 2) (h3 : ty ≠ 126) (h : 6 ≤ items.length) :
    selectFields ty items =
      Option.some (items.getD 3 [], items.getD 4 [], items.getD 5 []) := by
  simp [selectFields, h1, h2, h3, h,
    getElem?_eq_some_getD items 3 [] (by omega),
    getElem?_eq_some_getD items 4 [] (by omega),
    getElem?_eq_some_getD items 5 [] (by omega),
    -List.getD_eq_getElem?_getD]

/-! ## C7 — RLP bounds safety -/

/-- C7: the claim says every truncated or oversized-length RLP input
yields absence without panicking and without reading past the input.  The
code violates this: on the 9-byte input `0xbf 0xff×8` the long-string arm
reads `len = 2^64 - 1`, the total `1 + 8 + len` wraps to 8 at 64 bits, the
`data.len() < total` guard therefore passes, and the slice
`&data[9..8]` panics (in a debug build the addition itself panics first).
This closed theorem evaluates the embedded decoder at that failing
input. -/
theorem c7_rlp_overflow_panics :
    decode_rlp_item [191, 255, 255, 255, 255, 255, 255, 255, 255] = .panic ∧
      PResult.panic ≠ (PResult.none : PResult (List Nat × Nat)) := by
  constructor
  · decide
  · decide

/-! ## C9 — the empty-calldata transfer literal -/

/-- C9 counterexample: the decoder's literal for an empty-calldata,
positive-value transfer is `"ETH transfer"`, not the claimed
`"base-unit transfer"`.  The concrete EIP-1559 transaction
`0x02 c8 01 01 01 01 01 80 05 80` (eight single-byte items, empty `to`,
value 5, empty data) decodes with action `"ETH transfer"`. -/
theorem c9_counterexample :
    (decode_raw_tx (String.toList "02c80101010101800580")).map DecodedTx.action
        = PResult.some (Option.some "ETH transfer") ∧
      (Option.some "ETH transfer" : Option String) ≠ Option.some "base-unit transfer" := by
  constructor
  · decide
  · decide

/-- C9 (amended): for every raw transaction whose selected calldata is
empty and whose value is strictly positive, the decoder sets `action` to
the literal `"ETH transfer"`, and that is the same literal the
value-transfer (`EthTransfer`) trigger compares the action against. -/
theorem c9_eth_transfer_literal (s : List Char) (b0 : Nat) (rest : List Nat)
    (items : List (List Nat)) (to_bytes value_bytes : List Nat)
    (hhex : hexDecode (strip0x s) = Option.some (b0 :: rest))
    (hrlp : decode_rlp_list (if b0 ≤ 127 then rest else b0 :: rest) = .some items)
    (hsel : selectFields (if b0 ≤ 127 then b0 else 0) items
      = Option.some (to_bytes, value_bytes, []))
    (hpos : 0 < bytes_to_u128 value_bytes) :
    ∃ tx, decode_raw_tx s = .some tx ∧ tx.action = Option.some "ETH transfer" ∧
      ∀ min_eth : ℚ, matches_rule (Trigger.EthTransfer min_eth) tx =
        (decide (min_eth ≤ tx.value_eth) &&
          decide (tx.action = Option.some "ETH transfer")) := by
  refine ⟨finishDecode to_bytes value_bytes [], ?_, ?_, ?_⟩
  · simp only [decode_raw_tx, hhex, hrlp, hsel]
  · simp [finishDecode, hpos]
  · intro min_eth
    simp [matches_rule]

/-- C9 witness: the amended statement at the concrete transaction
`0x02 c8 01 01 01 01 01 80 05 80`. -/
theorem c9_witness :
    ∃ tx, decode_raw_tx (String.toList "02c80101010101800580") = .some tx ∧
      tx.action = Option.some "ETH transfer" ∧
      ∀ min_eth : ℚ, matches_rule (Trigger.EthTransfer min_eth) tx =
        (decide (min_eth ≤ tx.value_eth) &&
          decide (tx.action = Option.some "ETH transfer")) :=
  c9_eth_transfer_literal (String.toList "02c80101010101800580") 2
    [200, 1, 1, 1, 1, 1, 128, 5, 128]
    [[1], [1], [1], [1], [1], [], [5], []] [] [5]
    (by decide) (by decide) (by decide) (by decide)

/-! ## C1 — positional field selection of `decode_raw_tx` -/

/-- C1 counterexample: the claim's "a deposit-type (0x7e) transaction
always yields absence" fails — the top-level RLP list is decoded *before*
the type dispatch, so the deposit-type transaction
`0x7e 0xbf 0xff×8` panics in the RLP decoder (C7's overflow bug) instead
of returning absence. -/
theorem c1_counterexample :
    decode_raw_tx (String.toList "7ebfffffffffffffffffff") = .panic ∧
      (PResult.panic : PResult DecodedTx) ≠ .none := by
  constructor
  · decide
  · decide

/-- C1 (amended): for every raw transaction hex string whose RLP payload
decodes without panicking, `decode_raw_tx` selects `(to, value, data)`
positionally by type: a type-2 payload with at least 8 items uses items
[5,6,7]; a type-1 payload with at least 7 items uses items [4,5,6]; a
deposit (0x7e) payload yields absence; any other type with at least 6
items uses items [3,4,5].  An empty `to` item gives an absent
destination, the value is the big-endian 128-bit reading of the value
item, and the human value is the value divided by `10^18`. -/
theorem c1_positional_mapping (s : List Char) (b0 : Nat) (rest : List Nat)
    (items : List (List Nat))
    (hhex : hexDecode (strip0x s) = Option.some (b0 :: rest))
    (hrlp : decode_rlp_list (if b0 ≤ 127 then rest else b0 :: rest) = .some items) :
    ((if b0 ≤ 127 then b0 else 0) = 2 → 8 ≤ items.length →
      decode_raw_tx s =
        .some (finishDecode (items.getD 5 []) (items.getD 6 []) (items.getD 7 []))) ∧
    ((if b0 ≤ 127 then b0 else 0) = 1 → 7 ≤ items.length →
      decode_raw_tx s =
        .some (finishDecode (items.getD 4 []) (items.getD 5 []) (items.getD 6 []))) ∧
    ((if b0 ≤ 127 then b0 else 0) = 126 → decode_raw_tx s = .none) ∧
    ((if b0 ≤ 127 then b0 else 0) ≠ 1 → (if b0 ≤ 127 then b0 else 0) ≠ 2 →
      (if b0 ≤ 127 then b0 else 0) ≠ 126 → 6 ≤ items.length →
      decode_raw_tx s =
        .some (finishDecode (items.getD 3 []) (items.getD 4 []) (items.getD 5 []))) ∧
    (∀ to_bytes value_bytes data_bytes,
      ((finishDecode to_bytes value_bytes data_bytes).toAddr = Option.none ↔ to_bytes = []) ∧
      (finishDecode to_bytes value_bytes data_bytes).value_wei =
        (value_bytes.foldl (fun a b => a * 256 + b) 0) % 2 ^ 128 ∧
      (finishDecode to_bytes value_bytes data_bytes).value_eth =
        ((finishDecode to_bytes value_bytes data_bytes).value_wei : ℚ) / 10 ^ 18) := by
  refine ⟨?_, ?_, ?_, ?_, ?_⟩
  · intro hty hlen
    simp only [decode_raw_tx, hhex, hrlp, hty, selectFields_type2 items hlen]
  · intro hty hlen
    simp only [decode_raw_tx, hhex, hrlp, hty, selectFields_type1 items hlen]
  · intro hty
    simp only [decode_raw_tx, hhex, hrlp, hty]
    simp [selectFields]
  · intro h1 h2 h3 hlen
    simp only [decode_raw_tx, hhex, hrlp, selectFields_legacy _ items h1 h2 h3 hlen]
  · intro to_bytes value_bytes data_bytes
    refine ⟨?_, ?_, ?_⟩
    · simp [finishDecode]
    · simp [finishDecode, bytes_to_u128_eq_be]
    · simp [finishDecode]

/-- C1 witness: the amended statement at the concrete type-2
transaction `0x02 c8 01 01 01 01 01 80 07 80`, checking the type-2
conjunct and the field facts at its items. -/
theorem c1_witness :
    (decode_raw_tx (String.toList "02c80101010101800780") =
      .some (finishDecode [] [7] [])) ∧
    (finishDecode [] [7] []).toAddr = Option.none ∧
    (finishDecode [] [7] []).value_wei = 7 ∧
    (finishDecode [] [7] []).value_eth = (7 : ℚ) / 10 ^ 18 := by
  have h := c1_positional_mapping (String.toList "02c80101010101800780") 2
    [200, 1, 1, 1, 1, 1, 128, 7, 128]
    [[1], [1], [1], [1], [1], [], [7], []]
    (by decide) (by decide)
  refine ⟨?_, ?_, ?_, ?_⟩
  · have := h.1 (by decide) (by decide)
    simpa using this
  · exact ((h.2.2.2.2 [] [7] []).1).mpr rfl
  · have := (h.2.2.2.2 [] [7] []).2.1
    simpa using this
  · have := (h.2.2.2.2 [] [7] []).2.2
    have hw : (finishDecode [] [7] []).value_wei = 7 := by decide
    rw [hw] at this
    simpa using this

/-! ## C8 — the frame codec -/

/-- C8: for every byte string that is valid UTF-8 and whose text begins
with `{` after skipping leading whitespace, `decode_message` returns that
text verbatim; otherwise, if the bytes brotli-decompress to valid UTF-8,
it returns the decompressed text; if they decompress to invalid UTF-8 or
fail to decompress, it returns absence.  The brotli decompressor (4 KiB
window) is the abstract parameter `brotli`; the statement holds for every
decompressor. -/
theorem c8_codec (brotli : List Nat → Option (List Nat)) (data : List Nat) :
    (∀ text, utf8Decode data = Option.some text → (trimStart text).take 1 = ['{'] →
      decode_message brotli data = Option.some text) ∧
    ((∀ text, utf8Decode data = Option.some text → (trimStart text).take 1 ≠ ['{']) →
      (∀ plain, brotli data = Option.some plain →
        ∀ ptext, utf8Decode plain = Option.some ptext →
          decode_message brotli data = Option.some ptext) ∧
      ((∀ plain, brotli data = Option.some plain → utf8Decode plain = Option.none) →
        decode_message brotli data = Option.none) ∧
      (brotli data = Option.none → decode_message brotli data = Option.none)) := by
  constructor
  · intro text htext hbrace
    simp [decode_message, htext, hbrace]
  · intro hnobrace
    refine ⟨?_, ?_, ?_⟩
    · intro plain hplain ptext hptext
      cases hu : utf8Decode data with
      | none => simp [decode_message, hu, hplain, hptext]
      | some text =>
        have := hnobrace text hu
        simp [decode_message, hu, this, hplain, hptext]
    · intro hbad
      cases hu : utf8Decode data with
      | none =>
        cases hb : brotli data with
        | none => simp [decode_message, hu, hb]
        | some plain => simp [decode_message, hu, hb, hbad plain hb]
      | some text =>
        have := hnobrace text hu
        cases hb : brotli data with
        | none => simp [decode_message, hu, this, hb]
        | some plain => simp [decode_message, hu, this, hb, hbad plain hb]
    · intro hb
      cases hu : utf8Decode data with
      | none => simp [decode_message, hu, hb]
      | some text =>
        have := hnobrace text hu
        simp [decode_message, hu, this, hb]

/-- C8 witness: the verbatim branch at the concrete bytes `{}` (with a
decompressor that always fails, which the branch never consults). -/
theorem c8_witness :
    decode_message (fun _ => Option.none) [123, 125] = Option.some ['{', '}'] :=
  (c8_codec (fun _ => Option.none) [123, 125]).1 ['{', '}'] (by decide) (by decide)

/-! ## C5 / C6 — the reconnect loop of the streaming client -/

/-- C5 counterexample: a session whose handshake succeeds and whose
socket then yields a transport error (`Some(Err(_))`) makes the
`while let Some(Ok(msg))` loop end and `connect_and_stream` return
`Ok(())`, upon which the retry loop `break`s: the outcome records a break
at attempt 0, no backoff delay, and the second listed attempt is never
consumed — the claim instead requires entering Backoff and
reconnecting. -/
theorem c5_counterexample :
    (runConnectLoop (fun (_ : List Nat) (st : Unit) => st) 2 ()
        [⟨true, [WsEvent.err]⟩, ⟨true, []⟩]).1
      = ⟨[], Option.some 0, 2⟩ := by
  decide

/-- C5 (amended): a session whose handshake succeeds terminates the
reader loop when it ends — for any reason: transport error, close frame
or stream end — with no backoff and no reconnection; only a handshake
failure enters Backoff (sleeps the current delay and retries the rest of
the attempts). -/
theorem c5_session_end_breaks {St : Type} (process : List Nat → St → St)
    (d : Nat) (st : St) (a : Attempt) (rest : List Attempt) :
    (a.handshake = true →
      (runConnectLoop process d st (a :: rest)).1 = ⟨[], Option.some 0, d⟩) ∧
    (a.handshake = false →
      (runConnectLoop process d st (a :: rest)).1.delays =
        d :: (runConnectLoop process (min (d * 2) 30) st rest).1.delays) := by
  constructor
  · intro ha
    simp [runConnectLoop, connect_and_stream, ha]
  · intro ha
    simp only [runConnectLoop, connect_and_stream, ha, if_neg Bool.false_ne_true]

/-- C5 witness: the amended statement at a concrete error-terminated
session. -/
theorem c5_witness :
    (runConnectLoop (fun (_ : List Nat) (st : Unit) => st) 2 ()
        [⟨true, [WsEvent.err]⟩, ⟨false, []⟩]).1 = ⟨[], Option.some 0, 2⟩ :=
  (c5_session_end_breaks (fun _ (st : Unit) => st) 2 () ⟨true, [WsEvent.err]⟩
    [⟨false, []⟩]).1 rfl

/-- C6 counterexample: after two failed attempts and one successful
handshake, the loop has slept 2 s then 4 s, `retry_delay` is 8, and the
loop `break`s at the success — it is never reset to 2, and the fourth
listed attempt (which the claim's "resets to 2 after every successful
handshake" presupposes would be connected next) is never consumed. -/
theorem c6_counterexample :
    (runConnectLoop (fun (_ : List Nat) (st : Unit) => st) 2 ()
        [⟨false, []⟩, ⟨false, []⟩, ⟨true, []⟩, ⟨false, []⟩]).1
      = ⟨[2, 4], Option.some 2, 8⟩ ∧ (8 : Nat) ≠ 2 := by
  constructor
  · decide
  · decide

/-- The successive sleep delays produced by `n` consecutive failed
attempts starting from delay `d`: `d`, then `min (d*2) 30`, … -/
def backoffDelays (d : Nat) : Nat → List Nat
  | 0 => []
  | n + 1 => d :: backoffDelays (min (d * 2) 30) n

/-- One doubling step of the capped backoff. -/
theorem backoff_step (k : Nat) :
    min (min (2 ^ (k + 1)) 30 * 2) 30 = min (2 ^ (k + 2)) 30 := by
  rcases le_total (2 ^ (k + 1)) 30 with h | h
  · rw [min_eq_left h, pow_succ 2 (k + 1)]
  · rw [min_eq_right h]
    have h2 : (30 : Nat) ≤ 2 ^ (k + 2) := by
      calc (30 : Nat) ≤ 2 ^ (k + 1) := h
        _ ≤ 2 ^ (k + 2) := Nat.pow_le_pow_right (by norm_num) (by omega)
    rw [min_eq_right h2]
    omega

/-- The capped-doubling delays in closed form: starting from
`min (2^(k+1)) 30`, the `i`-th delay is `min (2^(k+i+1)) 30`. -/
theorem backoffDelays_formula :
    ∀ n k, backoffDelays (min (2 ^ (k + 1)) 30) n =
      (List.range n).map (fun i => min (2 ^ (k + i + 1)) 30) := by
  intro n
  induction n with
  | zero => intro k; simp [backoffDelays]
  | succ m ih =>
    intro k
    rw [backoffDelays, backoff_step k]
    have hK : min ((2 : Nat) ^ (k + 2)) 30 = min (2 ^ ((k + 1) + 1)) 30 := by ring_nf
    rw [hK, ih (k + 1), List.range_succ_eq_map]
    simp only [List.map_cons, List.map_map, List.cons.injEq]
    refine ⟨by simp, ?_⟩
    apply List.map_congr_left
    intro i hi
    simp only [Function.comp_apply, Nat.succ_eq_add_one]
    have he : k + 1 + i + 1 = k + (i + 1) + 1 := by omega
    rw [he]

/-- C6 (amended): the reconnect delay starts at 2 s and after each failed
connection attempt is updated by `d ← min (2·d, 30)`, yielding the sleep
sequence 2, 4, 8, 16, 30, 30, … for consecutive failures; at the first
successful handshake, however, the loop `break`s when that session ends,
so the delay is never reset to 2 and no further reconnection happens. -/
theorem c6_backoff_doubling {St : Type} (process : List Nat → St → St) (st : St)
    (pre : List Attempt) (a : Attempt) (rest : List Attempt)
    (hpre : ∀ x ∈ pre, x.handshake = false) (ha : a.handshake = true) :
    (runConnectLoop process 2 st (pre ++ a :: rest)).1.delays
        = backoffDelays 2 pre.length ∧
    (runConnectLoop process 2 st (pre ++ a :: rest)).1.broke
        = Option.some pre.length ∧
    ∀ n, backoffDelays 2 n = (List.range n).map (fun i => min (2 ^ (i + 1)) 30) := by
  have main : ∀ (pre' : List Attempt) (d : Nat) (st' : St),
      (∀ x ∈ pre', x.handshake = false) →
      (runConnectLoop process d st' (pre' ++ a :: rest)).1.delays
          = backoffDelays d pre'.length ∧
      (runConnectLoop process d st' (pre' ++ a :: rest)).1.broke
          = Option.some pre'.length := by
    intro pre'
    induction pre' with
    | nil =>
      intro d st' _
      simp [runConnectLoop, connect_and_stream, ha, backoffDelays]
    | cons x xs ih =>
      intro d st' hall
      have hx : x.handshake = false := hall x (by simp)
      have hrec := ih (min (d * 2) 30) st' (fun y hy => hall y (by simp [hy]))
      simp only [List.cons_append, runConnectLoop, connect_and_stream, hx,
        if_neg Bool.false_ne_true]
      cases hr : runConnectLoop process (min (d * 2) 30) st' (xs ++ a :: rest) with
      | mk o st'' =>
        rw [hr] at hrec
        simp only [backoffDelays, List.length_cons]
        simp at hrec ⊢
        exact ⟨hrec.1, hrec.2⟩
  refine ⟨(main pre 2 st hpre).1, (main pre 2 st hpre).2, ?_⟩
  intro n
  have h2 : (2 : Nat) = min (2 ^ (0 + 1)) 30 := by norm_num
  rw [h2, backoffDelays_formula n 0]
  simp

/-- C6 witness: the amended statement at three failing attempts followed
by a success — delays `[2, 4, 8]`, break at attempt 3. -/
theorem c6_witness :
    (runConnectLoop (fun (_ : List Nat) (st : Unit) => st) 2 ()
        ([⟨false, []⟩, ⟨false, []⟩, ⟨false, []⟩] ++ ⟨true, []⟩ :: [])).1.delays
      = backoffDelays 2 3 ∧
    (runConnectLoop (fun (_ : List Nat) (st : Unit) => st) 2 ()
        ([⟨false, []⟩, ⟨false, []⟩, ⟨false, []⟩] ++ ⟨true, []⟩ :: [])).1.broke
      = Option.some 3 := by
  have h := c6_backoff_doubling (fun (_ : List Nat) (st : Unit) => st) ()
    [⟨false, []⟩, ⟨false, []⟩, ⟨false, []⟩] ⟨true, []⟩ []
    (by decide) rfl
  exact ⟨h.1, h.2.1⟩

/-! ## C10 — `AlertQuery::from_params` -/

/-- C10 counterexample: `from_params` panics on the query map
`{last: "é"}` — `parse_duration_secs` byte-splits the trimmed value at
`len - 1`, which is not a char boundary when the final char is
multi-byte (`é` occupies two bytes), so the claimed "returns without
panicking for arbitrary Unicode values" is false. -/
theorem c10_counterexample :
    AlertQuery.from_params (fun _ => Option.none) [("last", ['é'])] 1700000000
      = .panic := by
  decide

/-- `parse_duration_secs` can only panic when the trimmed value's final
char is multi-byte. -/
theorem parse_duration_secs_panic_shape (v : List Char)
    (h : parse_duration_secs v = .panic) :
    ∃ c, (rustTrim v).getLast? = Option.some c ∧ charUtf8Size c ≠ 1 := by
  unfold parse_duration_secs at h
  split at h
  · cases h
  · rename_i lastChar hl
    split at h
    · rename_i hsize
      exact ⟨lastChar, hl, hsize⟩
    · exfalso
      split at h
      · cases h
      · repeat' split at h
        all_goals cases h

/-- C10 (amended): `from_params` returns without panicking whenever the
`last` value's trimmed chars are single-byte (in particular for every
ASCII value); a decimal `n` followed by suffix `s`, `m`, `h` or `d` whose
product with the unit does not overflow `u64` and does not exceed `now`
yields `since_ts = now - n·unit`; a `last` value that fails duration
parsing, or an absent `last`, falls back to the explicit `since` epoch.
(A trimmed `last` value ending in a multi-byte char panics, and the
arithmetic wraps modulo `2^64` — see the counterexample.) -/
theorem c10_from_params (parseF64 : List Char → Option ℚ)
    (params : List (String × List Char)) (now : Nat) :
    (∀ v, tableGet params "last" = Option.some v →
      (∀ c ∈ rustTrim v, charUtf8Size c = 1) →
      ∃ q, AlertQuery.from_params parseF64 params now = .some q) ∧
    (∀ v ds u n unit, tableGet params "last" = Option.some v →
      rustTrim v = ds ++ [u] →
      parseU64 ds = Option.some n →
      ((u = 's' ∧ unit = 1) ∨ (u = 'm' ∧ unit = 60) ∨ (u = 'h' ∧ unit = 3600) ∨
        (u = 'd' ∧ unit = 86400)) →
      n * unit < 2 ^ 64 → n * unit ≤ now → now < 2 ^ 64 →
      ∃ q, AlertQuery.from_params parseF64 params now = .some q ∧
        q.since_ts = Option.some (now - n * unit)) ∧
    (∀ v, tableGet params "last" = Option.some v → parse_duration_secs v = .none →
      ∃ q, AlertQuery.from_params parseF64 params now = .some q ∧
        q.since_ts = (tableGet params "since").bind parseU64) ∧
    (tableGet params "last" = Option.none →
      ∃ q, AlertQuery.from_params parseF64 params now = .some q ∧
        q.since_ts = (tableGet params "since").bind parseU64) := by
  refine ⟨?_, ?_, ?_, ?_⟩
  · intro v hv hascii
    simp only [AlertQuery.from_params, hv]
    cases hp : parse_duration_secs v with
    | panic =>
      obtain ⟨c, hc, hcs⟩ := parse_duration_secs_panic_shape v hp
      exact absurd (hascii c (List.mem_of_mem_getLast? hc)) hcs
    | none => exact ⟨_, rfl⟩
    | some secs => exact ⟨_, rfl⟩
  · intro v ds u n unit hv htrim hds huu hlt hle hnow
    have hdur : parse_duration_secs v = .some (n * unit) := by
      unfold parse_duration_secs
      rw [htrim, List.getLast?_concat, List.dropLast_concat, hds]
      rcases huu with ⟨rfl, rfl⟩ | ⟨rfl, rfl⟩ | ⟨rfl, rfl⟩ | ⟨rfl, rfl⟩
      · have h1 : charUtf8Size 's' = 1 := by decide
        simp [h1]
      · have h1 : charUtf8Size 'm' = 1 := by decide
        simp [h1, wrap64, Nat.mod_eq_of_lt hlt]
        simpa using hlt
      · have h1 : charUtf8Size 'h' = 1 := by decide
        simp [h1, wrap64, Nat.mod_eq_of_lt hlt]
        simpa using hlt
      · have h1 : charUtf8Size 'd' = 1 := by decide
        simp [h1, wrap64, Nat.mod_eq_of_lt hlt]
        simpa using hlt
    have hsub : u64Sub now (n * unit) = now - n * unit := by
      unfold u64Sub
      omega
    simp only [AlertQuery.from_params, hv, hdur, hsub]
    exact ⟨_, rfl, rfl⟩
  · intro v hv hnone
    simp only [AlertQuery.from_params, hv, hnone]
    exact ⟨_, rfl, rfl⟩
  · intro hv
    simp only [AlertQuery.from_params, hv]
    exact ⟨_, rfl, rfl⟩

/-- C10 witness: `{last: "30m", since: "5"}` at `now = 1700000000` gives
`since_ts = 1700000000 - 1800`. -/
theorem c10_witness :
    ∃ q, AlertQuery.from_params (fun _ => Option.none)
        [("last", String.toList "30m"), ("since", String.toList "5")] 1700000000
        = .some q ∧
      q.since_ts = Option.some (1700000000 - 30 * 60) :=
  (c10_from_params (fun _ => Option.none)
      [("last", String.toList "30m"), ("since", String.toList "5")] 1700000000).2.1
    (String.toList "30m") ['3', '0'] 'm' 30 60
    (by decide) (by decide) (by decide) (by decide) (by decide) (by decide) (by decide)

/-! ## C4 — enrichment alignment -/

/-- The concrete frame refuting C4: `diff.transactions = [null]`. -/
def c4CounterFrame : Json :=
  Json.obj [("diff", Json.obj [("transactions", Json.arr [Json.null])])]

/-- C4 counterexample: a frame whose `diff.transactions` holds one
non-string entry.  `enrich_flashblock` pushes nothing for a non-string
entry, so `_decoded_txs` has length 0 while `diff.transactions` has
length 1 — the claimed length equality fails. -/
theorem c4_counterexample :
    ((jsonPointer c4CounterFrame ["diff", "transactions"]).bind Json.asArr).map
        List.length = Option.some 1 ∧
    (match enrich_flashblock c4CounterFrame with
      | .some out => ((out.getField "_decoded_txs").bind Json.asArr).map List.length
      | _ => Option.none) = Option.some 0 ∧
    Option.some (1 : Nat) ≠ Option.some 0 := by
  refine ⟨rfl, rfl, by decide⟩

/-- Inserting a field leaves every other key's lookup unchanged. -/
theorem tableGet_insertField_other (fs : List (String × Json)) (k k' : String)
    (v : Json) (h : k' ≠ k) :
    tableGet (insertField fs k v) k' = tableGet fs k' := by
  induction fs with
  | nil => simp [insertField, tableGet, List.find?_cons, Ne.symm h]
  | cons p rest ih =>
    obtain ⟨pk, pv⟩ := p
    by_cases hp : pk = k
    · subst hp
      simp [insertField, tableGet, List.find?_cons, Ne.symm h]
    · by_cases hp' : pk = k'
      · subst hp'
        simp [insertField, if_neg hp, tableGet, List.find?_cons]
      · simp only [insertField, if_neg hp]
        simp only [tableGet, List.find?_cons] at ih ⊢
        simp only [show (decide ((pk, pv).1 = k')) = false from by
          simp [hp']]
        simpa [tableGet] using ih

/-- Inserting a field makes that key's lookup the new value. -/
theorem tableGet_insertField_self (fs : List (String × Json)) (k : String)
    (v : Json) : tableGet (insertField fs k v) k = Option.some v := by
  induction fs with
  | nil => simp [insertField, tableGet, List.find?_cons]
  | cons p rest ih =>
    obtain ⟨pk, pv⟩ := p
    by_cases hp : pk = k
    · subst hp
      simp [insertField, tableGet, List.find?_cons]
    · simp only [insertField, if_neg hp]
      simp only [tableGet, List.find?_cons] at ih ⊢
      simp only [show (decide ((pk, pv).1 = k)) = false from by
        simp [hp]]
      simpa [tableGet] using ih

/-- Elementwise characterisation of the decode loop of
`enrich_flashblock` when every entry is a string: one output element per
input element, aligned by index, a full decoded object for entries that
decode and a `raw`-prefix object for the rest. -/
theorem enrichTxLoop_aligned (txs : List Json) (ds : List Json)
    (hstr : ∀ v ∈ txs, ∃ s : String, v = Json.str s)
    (h : enrichTxLoop txs = .some ds) :
    ds.length = txs.length ∧
    ∀ i (hi : i < txs.length), ∃ s : String, txs.get ⟨i, hi⟩ = Json.str s ∧
      ((∃ dtx, decode_raw_tx s.toList = .some dtx ∧
          ds.get? i = Option.some (jsonOfDecodedTx dtx)) ∨
       (∃ pre, decode_raw_tx s.toList = .none ∧ rawPrefix40 s.toList = .some pre ∧
          ds.get? i = Option.some (Json.obj [("raw", Json.str (String.mk pre))]))) := by
  induction txs generalizing ds with
  | nil =>
    unfold enrichTxLoop at h
    cases h
    exact ⟨rfl, by intro i hi; simp at hi⟩
  | cons v rest ih =>
    obtain ⟨s, rfl⟩ := hstr v (by simp)
    rw [show enrichTxLoop (Json.str s :: rest) = (match decode_raw_tx s.toList with
     | .panic => .panic
     | .some dtx =>
       (match enrichTxLoop rest with
        | .panic => .panic
        | .none => .none
        | .some ds => .some (jsonOfDecodedTx dtx :: ds))
     | .none =>
       match rawPrefix40 s.toList with
       | .panic => .panic
       | .none => .panic
       | .some pre =>
         (match enrichTxLoop rest with
          | .panic => .panic
          | .none => .none
          | .some ds => .some (Json.obj [("raw", .str (String.mk pre))] :: ds)))
      from rfl] at h
    cases hd : decode_raw_tx s.toList with
    | panic => rw [hd] at h; cases h
    | some dtx =>
      rw [hd] at h
      cases hrest : enrichTxLoop rest with
      | panic => rw [hrest] at h; cases h
      | none => rw [hrest] at h; cases h
      | some ds' =>
        rw [hrest] at h
        cases h
        obtain ⟨hlen, helem⟩ := ih ds' (fun w hw => hstr w (by simp [hw])) hrest
        refine ⟨by simp [hlen], ?_⟩
        intro i hi
        cases i with
        | zero => exact ⟨s, rfl, Or.inl ⟨dtx, hd, rfl⟩⟩
        | succ j =>
          obtain ⟨s', hs', hcase⟩ := helem j (by simpa using hi)
          exact ⟨s', hs', by simpa using hcase⟩
    | none =>
      rw [hd] at h
      cases hpre : rawPrefix40 s.toList with
      | panic => rw [hpre] at h; cases h
      | none => rw [hpre] at h; cases h
      | some pre =>
        rw [hpre] at h
        cases hrest : enrichTxLoop rest with
        | panic => rw [hrest] at h; cases h
        | none => rw [hrest] at h; cases h
        | some ds' =>
          rw [hrest] at h
          cases h
          obtain ⟨hlen, helem⟩ := ih ds' (fun w hw => hstr w (by simp [hw])) hrest
          refine ⟨by simp [hlen], ?_⟩
          intro i hi
          cases i with
          | zero => exact ⟨s, rfl, Or.inr ⟨pre, hd, hpre, rfl⟩⟩
          | succ j =>
            obtain ⟨s', hs', hcase⟩ := helem j (by simpa using hi)
            exact ⟨s', hs', by simpa using hcase⟩

/-- C4 (amended): whenever every entry of `diff.transactions` is a
string and the enrichment completes without panicking, `_decoded_txs`
has the same length as `diff.transactions` with indices aligned:
element `i` is the full decoded transaction object when entry `i`
decodes, and otherwise the object `{"raw": <first 40 bytes of the hex
string>}`.  (A non-string entry is skipped — pushing nothing — which
breaks the length equality, see the counterexample; a decoder panic or a
`raw`-slice panic aborts enrichment.) -/
theorem c4_enrichment_alignment (fb : Json) (txs : List Json) (out : Json)
    (htxs : (jsonPointer fb ["diff", "transactions"]).bind Json.asArr = Option.some txs)
    (hstr : ∀ v ∈ txs, ∃ s : String, v = Json.str s)
    (hout : enrich_flashblock fb = .some out) :
    ∃ ds, out.getField "_decoded_txs" = Option.some (Json.arr ds) ∧
      ds.length = txs.length ∧
      ∀ i (hi : i < txs.length), ∃ s : String, txs.get ⟨i, hi⟩ = Json.str s ∧
        ((∃ dtx, decode_raw_tx s.toList = .some dtx ∧
            ds.get? i = Option.some (jsonOfDecodedTx dtx)) ∨
         (∃ pre, decode_raw_tx s.toList = .none ∧ rawPrefix40 s.toList = .some pre ∧
            ds.get? i = Option.some (Json.obj [("raw", Json.str (String.mk pre))]))) := by
  unfold enrich_flashblock at hout
  rw [htxs] at hout
  simp only [Option.getD_some] at hout
  cases hloop : enrichTxLoop txs with
  | panic => rw [hloop] at hout; cases hout
  | none => rw [hloop] at hout; cases hout
  | some decoded =>
    rw [hloop] at hout
    obtain ⟨hlen, helem⟩ := enrichTxLoop_aligned txs decoded hstr hloop
    have hobj : ∃ fs, fb = Json.obj fs := by
      cases fb with
      | obj fs => exact ⟨fs, rfl⟩
      | null => simp [jsonPointer, Json.getField, Option.bind] at htxs
      | bool b => simp [jsonPointer, Json.getField, Option.bind] at htxs
      | num q => simp [jsonPointer, Json.getField, Option.bind] at htxs
      | str s => simp [jsonPointer, Json.getField, Option.bind] at htxs
      | arr elems => simp [jsonPointer, Json.getField, Option.bind] at htxs
    obtain ⟨fs, rfl⟩ := hobj
    simp only [jsonInsert] at hout
    by_cases hw : (whaleLoop
        (((jsonPointer (Json.obj fs) ["metadata", "new_account_balances"]).bind
          Json.asObj).getD [])).isEmpty
    · rw [if_pos hw] at hout
      cases hout
      refine ⟨decoded, ?_, hlen, helem⟩
      simp only [Json.getField]
      exact tableGet_insertField_self fs "_decoded_txs" (Json.arr decoded)
    · rw [if_neg hw] at hout
      cases hout
      refine ⟨decoded, ?_, hlen, helem⟩
      simp only [Json.getField]
      rw [tableGet_insertField_other _ "_whale_alerts" "_decoded_txs" _ (by decide)]
      exact tableGet_insertField_self fs "_decoded_txs" (Json.arr decoded)

/-- The concrete frame for the C4 witness: one decodable transaction and
one undecodable entry, both strings. -/
def c4WitnessFrame : Json :=
  Json.obj [("diff", Json.obj [("transactions",
    Json.arr [Json.str "02c80101010101801080", Json.str "zz"])])]

/-- C4 witness: the amended statement at `c4WitnessFrame` — the enriched
`_decoded_txs` exists and has length 2, equal to the entry count. -/
theorem c4_witness :
    ∃ out ds, enrich_flashblock c4WitnessFrame = .some out ∧
      out.getField "_decoded_txs" = Option.some (Json.arr ds) ∧ ds.length = 2 := by
  have hsome : (match enrich_flashblock c4WitnessFrame with
      | .some _ => true
      | _ => false) = true := rfl
  cases hout : enrich_flashblock c4WitnessFrame with
  | panic => rw [hout] at hsome; cases hsome
  | none => rw [hout] at hsome; cases hsome
  | some out =>
    have h := c4_enrichment_alignment c4WitnessFrame
      [Json.str "02c80101010101801080", Json.str "zz"] out rfl
      (by
        intro v hv
        simp only [List.mem_cons, List.not_mem_nil, or_false] at hv
        rcases hv with rfl | rfl
        · exact ⟨"02c80101010101801080", rfl⟩
        · exact ⟨"zz", rfl⟩)
      hout
    obtain ⟨ds, hds, hlen, _⟩ := h
    exact ⟨out, ds, rfl, hds, by simpa using hlen⟩

/-! ## C2 — the global rate limit -/

/-- The trace of a sequence of `check` calls on a fresh engine: each
call's monotonic instant with the alerts it emitted. -/
def callTrace (cfg : RulesConfig) (calls : List CallInput) : List (ℚ × List Alert) :=
  (runCalls (RuleEngine.new cfg) calls).1

/-- The fire instants of a trace: one copy of the call's instant per
alert the call emitted. -/
def fireInstants (trace : List (ℚ × List Alert)) : List ℚ :=
  (trace.map (fun p => p.2.map (fun _ => p.1))).flatten

/-- Membership of a fire instant in the rolling window `(T − 60, T]` —
half-open exactly as the engine's strict `now − t < 60` prune is. -/
def inWindow (T f : ℚ) : Bool := decide (T - 60 < f) && decide (f ≤ T)

/-- The rule loop appends one copy of `now` to the fires window per
emitted alert, and never grows the window beyond
`max (fires.length) max_per_minute`. -/
theorem checkRulesLoop_fires_spec (gc : GlobalConfig) (tx : DecodedTx)
    (bn : Option Nat) (fi : Nat) (now : ℚ) (epoch : Nat) :
    ∀ (rules : List Rule) (lf : List (String × ℚ)) (fires : List ℚ),
      (checkRulesLoop gc tx bn fi now epoch rules lf fires).fires
        = fires ++ List.replicate
            (checkRulesLoop gc tx bn fi now epoch rules lf fires).alerts.length now ∧
      fires.length + (checkRulesLoop gc tx bn fi now epoch rules lf fires).alerts.length
        ≤ max fires.length gc.max_per_minute := by
  intro rules
  induction rules with
  | nil =>
    intro lf fires
    simp [checkRulesLoop]
  | cons rule rest ih =>
    intro lf fires
    by_cases hen : rule.enabled = false
    · simp only [checkRulesLoop, if_pos hen]
      exact ih lf fires
    · by_cases hmax : gc.max_per_minute ≤ fires.length
      · simp only [checkRulesLoop, if_neg hen, if_pos hmax]
        refine ⟨by simp, by simp⟩
      · by_cases hcd : (match lfGet lf rule.name with
            | Option.some last =>
              decide (now - last < ((rule.cooldown_secs.getD gc.cooldown_secs : Nat) : ℚ))
            | Option.none => false) = true
        · simp only [checkRulesLoop, if_neg hen, if_neg hmax, if_pos hcd]
          exact ih lf fires
        · by_cases hm : matches_rule rule.trigger tx = true
          · simp only [checkRulesLoop, if_neg hen, if_neg hmax,
              if_neg hcd, if_pos hm]
            obtain ⟨ih1, ih2⟩ := ih ((rule.name, now) :: lf) (fires ++ [now])
            constructor
            · rw [ih1]
              simp [List.replicate_succ]
            · simp only [List.length_append, List.length_cons, List.length_nil]
                at ih2 ⊢
              omega
          · simp only [checkRulesLoop, if_neg hen, if_neg hmax,
              if_neg hcd, if_neg hm]
            exact ih lf fires

/-- The per-call throttle: once the pruned window holds `max_per_minute`
entries or more, `check` emits nothing further in that call; in general
a call emits at most `max_per_minute − |pruned window|` alerts. -/
theorem check_alerts_bound (e : RuleEngine) (tx : DecodedTx) (bn : Option Nat)
    (fi : Nat) (now : ℚ) (epoch : Nat) :
    ((e.check tx bn fi now epoch).1).length
      ≤ e.config.global.max_per_minute
        - (e.fires_this_minute.filter (fun t => decide (now - t < 60))).length := by
  have h := (checkRulesLoop_fires_spec e.config.global tx bn fi now epoch
    e.config.rules e.last_fired
    (e.fires_this_minute.filter (fun t => decide (now - t < 60)))).2
  simp only [RuleEngine.check]
  omega

/-- Filtering with a pointwise-weaker predicate keeps at least as many
elements. -/
theorem length_filter_mono {A : Type} (l : List A) (p q : A → Bool)
    (h : ∀ a ∈ l, p a = true → q a = true) :
    (l.filter p).length ≤ (l.filter q).length := by
  induction l with
  | nil => simp
  | cons a rest ih =>
    have ih' := ih (fun b hb hpb => h b (by simp [hb]) hpb)
    by_cases hp : p a = true
    · have hq := h a (by simp) hp
      simp only [List.filter_cons, hp, hq, if_true]
      simpa using ih'
    · rw [Bool.not_eq_true] at hp
      simp only [List.filter_cons, hp]
      by_cases hq : q a = true
      · simp only [hq]
        simp only [Bool.false_eq_true, if_false, if_true, List.length_cons]
        omega
      · rw [Bool.not_eq_true] at hq
        simp only [hq, Bool.false_eq_true, if_false]
        exact ih'

/-- A filter of a filter collapses when membership in the outer filter
implies membership in the inner one. -/
theorem filter_absorb (H : List ℚ) (p q : ℚ → Bool)
    (himp : ∀ f ∈ H, q f = true → p f = true) :
    (H.filter p).filter q = H.filter q := by
  rw [List.filter_filter]
  apply List.filter_congr
  intro a ha
  by_cases hq : q a = true
  · simp [hq, himp a ha hq]
  · rw [Bool.not_eq_true] at hq
    simp [hq]

/-- Filtering a constant list keeps all or nothing. -/
theorem filter_replicate_cases (k : Nat) (a : ℚ) (p : ℚ → Bool) :
    (List.replicate k a).filter p = if p a then List.replicate k a else [] := by
  induction k with
  | zero => simp
  | succ n ih =>
    by_cases hp : p a = true
    · simp [List.replicate_succ, List.filter_cons, hp, ih]
    · rw [Bool.not_eq_true] at hp
      simp [List.replicate_succ, List.filter_cons, hp, ih]

/-- The rolling-window invariant of a call sequence: starting from an
engine whose window is the filtered view of the fire history `H`, with
nondecreasing call instants, every rolling 60-second window ever holds
at most `max_per_minute` fire instants. -/
theorem runCalls_rate_invariant (cfg : RulesConfig) :
    ∀ (calls : List CallInput) (e : RuleEngine) (H : List ℚ) (t0 : ℚ),
      e.config = cfg →
      List.Chain (· ≤ ·) t0 (calls.map CallInput.now) →
      e.fires_this_minute = H.filter (fun f => decide (t0 - f < 60)) →
      (∀ f ∈ H, f ≤ t0) →
      (∀ T : ℚ, (H.filter (inWindow T)).length ≤ cfg.global.max_per_minute) →
      ∀ T : ℚ, ((H ++ fireInstants (runCalls e calls).1).filter (inWindow T)).length
        ≤ cfg.global.max_per_minute := by
  intro calls
  induction calls with
  | nil =>
    intro e H t0 hcfg hchain hfires hle hwin T
    simpa [runCalls, fireInstants] using hwin T
  | cons c rest ih =>
    intro e H t0 hcfg hchain hfires hle hwin T
    rw [List.map_cons, List.chain_cons] at hchain
    obtain ⟨ht0, hchain'⟩ := hchain
    have hspec := checkRulesLoop_fires_spec e.config.global c.tx c.block_number
      c.flashblock_index c.now c.epoch_secs e.config.rules e.last_fired
      (e.fires_this_minute.filter (fun f => decide (c.now - f < 60)))
    -- the pruned window is the `c.now`-filtered view of `H`
    have hpruned : e.fires_this_minute.filter (fun f => decide (c.now - f < 60))
        = H.filter (fun f => decide (c.now - f < 60)) := by
      rw [hfires]
      apply filter_absorb
      intro f _ hq
      rw [decide_eq_true_iff] at hq ⊢
      linarith
    set k := (checkRulesLoop e.config.global c.tx c.block_number c.flashblock_index
      c.now c.epoch_secs e.config.rules e.last_fired
      (e.fires_this_minute.filter (fun f => decide (c.now - f < 60)))).alerts.length
      with hk
    -- the new history
    have happ : ∀ T' : ℚ,
        ((H ++ List.replicate k c.now).filter (inWindow T')).length
          ≤ cfg.global.max_per_minute := by
      intro T'
      rw [List.filter_append, List.length_append, filter_replicate_cases]
      by_cases hw : inWindow T' c.now = true
      · rw [if_pos hw]
        have hmono : (H.filter (inWindow T')).length
            ≤ (H.filter (fun f => decide (c.now - f < 60))).length := by
          apply length_filter_mono
          intro f hf hpf
          rw [inWindow, Bool.and_eq_true, decide_eq_true_iff, decide_eq_true_iff] at hpf
          rw [inWindow, Bool.and_eq_true, decide_eq_true_iff, decide_eq_true_iff] at hw
          rw [decide_eq_true_iff]
          have := hle f hf
          linarith [hw.2, hpf.1]
        have hb := hspec.2
        rw [hpruned] at hb
        rw [hcfg] at hb
        have hwT := hwin T'
        simp only [List.length_replicate]
        omega
      · rw [if_neg hw]
        simpa using hwin T'
    -- unfold one step of runCalls
    cases hck : e.check c.tx c.block_number c.flashblock_index c.now c.epoch_secs with
    | mk alerts e' =>
      have halerts : alerts = (checkRulesLoop e.config.global c.tx c.block_number
          c.flashblock_index c.now c.epoch_secs e.config.rules e.last_fired
          (e.fires_this_minute.filter (fun f => decide (c.now - f < 60)))).alerts := by
        have := congrArg Prod.fst hck
        simpa [RuleEngine.check] using this.symm
      have he' : e' = (⟨e.config,
          (checkRulesLoop e.config.global c.tx c.block_number
            c.flashblock_index c.now c.epoch_secs e.config.rules e.last_fired
            (e.fires_this_minute.filter (fun f => decide (c.now - f < 60)))).last_fired,
          (checkRulesLoop e.config.global c.tx c.block_number
            c.flashblock_index c.now c.epoch_secs e.config.rules e.last_fired
            (e.fires_this_minute.filter (fun f => decide (c.now - f < 60)))).fires⟩
          : RuleEngine) := by
        have := congrArg Prod.snd hck
        simpa [RuleEngine.check] using this.symm
      have hstep := ih e' (H ++ List.replicate k c.now) c.now
        (by rw [he']; exact hcfg)
        hchain'
        (by
          rw [he']
          simp only
          rw [hspec.1, hpruned, List.filter_append, filter_replicate_cases]
          rw [if_pos (by rw [decide_eq_true_iff]; norm_num)])
        (by
          intro f hf
          rcases List.mem_append.mp hf with hf | hf
          · exact le_trans (hle f hf) ht0
          · rw [List.eq_of_mem_replicate hf])
        happ
      have htrace : fireInstants ((runCalls e (c :: rest)).1)
          = List.replicate k c.now ++ fireInstants ((runCalls e' rest).1) := by
        simp only [runCalls, hck]
        cases hrc : runCalls e' rest with
        | mk trace e'' =>
          simp only [fireInstants, List.map_cons, List.flatten_cons]
          have : alerts.map (fun _ => c.now) = List.replicate alerts.length c.now := by
            simp [List.map_const']
          rw [this, halerts, ← hk]
      rw [htrace, ← List.append_assoc]
      exact hstep T

/-- C2: across any rolling 60-second window `(T − 60, T]`, a sequence of
`check` calls with nondecreasing monotonic instants emits at most
`max_per_minute` alerts whose fire instants lie in the window; and
within a single call, once the pruned fires window holds
`max_per_minute` entries, no further alerts are emitted — a call emits
at most `max_per_minute − |pruned window|` alerts. -/
theorem c2_global_rate_limit (cfg : RulesConfig) (calls : List CallInput)
    (hchain : List.Chain' (· ≤ ·) (calls.map CallInput.now)) :
    (∀ T : ℚ, ((fireInstants (callTrace cfg calls)).filter (inWindow T)).length
        ≤ cfg.global.max_per_minute) ∧
    (∀ (e : RuleEngine) (tx : DecodedTx) (bn : Option Nat) (fi : Nat) (now : ℚ)
        (epoch : Nat),
      ((e.check tx bn fi now epoch).1).length
        ≤ e.config.global.max_per_minute
          - (e.fires_this_minute.filter (fun t => decide (now - t < 60))).length) := by
  constructor
  · intro T
    cases calls with
    | nil => simp [callTrace, runCalls, fireInstants]
    | cons c rest =>
      have hchain2 : List.Chain (· ≤ ·) c.now ((c :: rest).map CallInput.now) := by
        rw [List.map_cons, List.chain_cons]
        rw [List.map_cons] at hchain
        exact ⟨le_refl _, hchain⟩
      have := runCalls_rate_invariant cfg (c :: rest) (RuleEngine.new cfg) [] c.now
        rfl hchain2 (by simp [RuleEngine.new]) (by simp) (by simp) T
      simpa [callTrace] using this
  · intro e tx bn fi now epoch
    exact check_alerts_bound e tx bn fi now epoch

/-- The configuration used by the C2 witness: one always-matching rule,
the default global limits. -/
def c2WitnessCfg : RulesConfig :=
  ⟨[⟨"big", Trigger.LargeValue 0, Option.none, Option.none, true⟩], ⟨10, 30, 0, 30⟩⟩

/-- The decoded transaction used by the C2/C3 witnesses: no destination,
no label, zero value, no action. -/
def witnessTx : DecodedTx :=
  ⟨Option.none, Option.none, Option.none, Option.none, 0, 0, Option.none,
    .unknown, Option.none⟩

/-- The call sequence used by the C2 witness: two calls at instants 0
and 5. -/
def c2WitnessCalls : List CallInput :=
  [⟨witnessTx, Option.none, 0, 0, 100⟩, ⟨witnessTx, Option.none, 1, 5, 105⟩]

/-- C2 witness: the rate-limit statement at a concrete two-call
sequence, for the window ending at instant 5. -/
theorem c2_witness :
    ((fireInstants (callTrace c2WitnessCfg c2WitnessCalls)).filter
        (inWindow 5)).length ≤ c2WitnessCfg.global.max_per_minute :=
  (c2_global_rate_limit c2WitnessCfg c2WitnessCalls
    (by
      have hmap : c2WitnessCalls.map CallInput.now = [(0 : ℚ), 5] := rfl
      rw [hmap]
      exact List.chain'_cons.mpr ⟨by norm_num, List.chain'_singleton 5⟩)).1 5

/-! ## C3 — per-rule cooldown -/

/-- `lfGet` after a prepend (`HashMap::insert`). -/
theorem lfGet_cons (k : String) (t : ℚ) (lf : List (String × ℚ)) (r : String) :
    lfGet ((k, t) :: lf) r = if k = r then Option.some t else lfGet lf r := by
  by_cases h : k = r
  · simp [lfGet, List.find?_cons, h]
  · simp [lfGet, List.find?_cons, h]

/-- What one call does to `last_fired[r]`: if the call emitted no alert
for rule name `r` the entry is unchanged; if it emitted one, the entry
becomes `now`, and the previous entry (when present) was at least the
effective cooldown `cool` in the past.  Requires every rule named `r` to
carry the same effective cooldown `cool`. -/
theorem checkRulesLoop_lastFired_spec (gc : GlobalConfig) (tx : DecodedTx)
    (bn : Option Nat) (fi : Nat) (now : ℚ) (epoch : Nat) (r : String) (cool : Nat) :
    ∀ (rules : List Rule) (lf : List (String × ℚ)) (fires : List ℚ),
      (∀ ru ∈ rules, ru.name = r → ru.cooldown_secs.getD gc.cooldown_secs = cool) →
      ((∀ a ∈ (checkRulesLoop gc tx bn fi now epoch rules lf fires).alerts,
          a.rule_name ≠ r) →
        lfGet (checkRulesLoop gc tx bn fi now epoch rules lf fires).last_fired r
          = lfGet lf r) ∧
      ((∃ a ∈ (checkRulesLoop gc tx bn fi now epoch rules lf fires).alerts,
          a.rule_name = r) →
        lfGet (checkRulesLoop gc tx bn fi now epoch rules lf fires).last_fired r
          = Option.some now ∧
        (lfGet lf r = Option.none ∨
          ∃ last, lfGet lf r = Option.some last ∧ (cool : ℚ) ≤ now - last)) := by
  intro rules
  induction rules with
  | nil =>
    intro lf fires hcool
    refine ⟨fun _ => rfl, fun hex => ?_⟩
    simp [checkRulesLoop] at hex
  | cons rule rest ih =>
    intro lf fires hcool
    have hcool' : ∀ ru ∈ rest, ru.name = r →
        ru.cooldown_secs.getD gc.cooldown_secs = cool :=
      fun ru hru => hcool ru (List.mem_cons_of_mem rule hru)
    by_cases hen : rule.enabled = false
    · simp only [checkRulesLoop, if_pos hen]
      exact ih lf fires hcool'
    · by_cases hmax : gc.max_per_minute ≤ fires.length
      · simp only [checkRulesLoop, if_neg hen, if_pos hmax]
        constructor
        · intro _
          trivial
        · intro hex
          simp at hex
      · by_cases hcd : (match lfGet lf rule.name with
            | Option.some last =>
              decide (now - last < ((rule.cooldown_secs.getD gc.cooldown_secs : Nat) : ℚ))
            | Option.none => false) = true
        · simp only [checkRulesLoop, if_neg hen, if_neg hmax, if_pos hcd]
          exact ih lf fires hcool'
        · by_cases hm : matches_rule rule.trigger tx = true
          · simp only [checkRulesLoop, if_neg hen, if_neg hmax, if_neg hcd, if_pos hm]
            obtain ⟨iha, ihb⟩ := ih ((rule.name, now) :: lf) (fires ++ [now]) hcool'
            by_cases hname : rule.name = r
            · have hlf' : lfGet ((rule.name, now) :: lf) r = Option.some now := by
                rw [lfGet_cons, if_pos hname]
              have hout : lfGet (checkRulesLoop gc tx bn fi now epoch rest
                  ((rule.name, now) :: lf) (fires ++ [now])).last_fired r
                  = Option.some now := by
                by_cases hex : ∃ a ∈ (checkRulesLoop gc tx bn fi now epoch rest
                    ((rule.name, now) :: lf) (fires ++ [now])).alerts, a.rule_name = r
                · exact (ihb hex).1
                · push_neg at hex
                  rw [iha hex]
                  exact hlf'
              constructor
              · intro hall
                exact absurd hname (hall _ (List.mem_cons_self _ _))
              · intro _
                refine ⟨hout, ?_⟩
                cases hl : lfGet lf r with
                | none => exact Or.inl rfl
                | some last =>
                  refine Or.inr ⟨last, rfl, ?_⟩
                  rw [hname] at hcd
                  rw [hl] at hcd
                  rw [hcool rule (List.mem_cons_self _ _) hname] at hcd
                  simp only [decide_eq_true_eq] at hcd
                  linarith [not_lt.mp hcd]
            · have hlf' : lfGet ((rule.name, now) :: lf) r = lfGet lf r := by
                rw [lfGet_cons, if_neg hname]
              constructor
              · intro hall
                have hall' : ∀ a ∈ (checkRulesLoop gc tx bn fi now epoch rest
                    ((rule.name, now) :: lf) (fires ++ [now])).alerts, a.rule_name ≠ r :=
                  fun a ha => hall a (List.mem_cons_of_mem _ ha)
                rw [iha hall']
                exact hlf'
              · intro hex
                obtain ⟨a, ha, har⟩ := hex
                rcases List.mem_cons.mp ha with rfl | ha'
                · exact absurd har hname
                · obtain ⟨h1, h2⟩ := ihb ⟨a, ha', har⟩
                  rw [hlf'] at h2
                  exact ⟨h1, h2⟩
          · simp only [checkRulesLoop, if_neg hen, if_neg hmax, if_neg hcd, if_neg hm]
            exact ih lf fires hcool'

/-- The last element of a non-trivial constant list. -/
theorem getLast?_replicate_succ (k : Nat) (a : ℚ) :
    (List.replicate (k + 1) a).getLast? = Option.some a := by
  induction k with
  | zero => rfl
  | succ n ih =>
    rw [List.replicate_succ, List.replicate_succ, List.getLast?_cons_cons,
      ← List.replicate_succ]
    exact ih

/-- A constant list is pairwise related by any reflexive-at-the-point
relation. -/
theorem pairwise_replicate_of_refl (k : Nat) (a : ℚ) (R : ℚ → ℚ → Prop)
    (h : R a a) : List.Pairwise R (List.replicate k a) := by
  induction k with
  | zero => simp
  | succ n ih =>
    rw [List.replicate_succ]
    exact List.Pairwise.cons
      (fun b hb => by rw [List.eq_of_mem_replicate hb]; exact h) ih

/-- The fire instants of rule name `r` along a trace: one copy of the
call's instant per alert with `rule_name = r`. -/
def rFires (r : String) (trace : List (ℚ × List Alert)) : List ℚ :=
  (trace.map (fun p =>
    (p.2.filter (fun a => decide (a.rule_name = r))).map (fun _ => p.1))).flatten

/-- The cooldown invariant of a call sequence: starting from an engine
whose `last_fired[r]` is the last entry of the fire history `Hr` of rule
name `r`, with nondecreasing call instants, the full fire history of `r`
stays pairwise separated by the effective cooldown. -/
theorem runCalls_cooldown_invariant (cfg : RulesConfig) (r : String) (cool : Nat)
    (hcool : ∀ ru ∈ cfg.rules, ru.name = r →
      ru.cooldown_secs.getD cfg.global.cooldown_secs = cool) :
    ∀ (calls : List CallInput) (e : RuleEngine) (Hr : List ℚ) (t0 : ℚ),
      e.config = cfg →
      List.Chain (· ≤ ·) t0 (calls.map CallInput.now) →
      lfGet e.last_fired r = Hr.getLast? →
      (∀ f ∈ Hr, f ≤ t0) →
      (∀ f ∈ Hr, ∀ g, Hr.getLast? = Option.some g → f ≤ g) →
      List.Pairwise (fun t1 t2 => t1 < t2 → (cool : ℚ) ≤ t2 - t1) Hr →
      List.Pairwise (fun t1 t2 => t1 < t2 → (cool : ℚ) ≤ t2 - t1)
        (Hr ++ rFires r (runCalls e calls).1) := by
  intro calls
  induction calls with
  | nil =>
    intro e Hr t0 hcfg hchain hlf hle hmax hpw
    simpa [runCalls, rFires] using hpw
  | cons c rest ih =>
    intro e Hr t0 hcfg hchain hlf hle hmax hpw
    rw [List.map_cons, List.chain_cons] at hchain
    obtain ⟨ht0, hchain'⟩ := hchain
    have hcoolE : ∀ ru ∈ e.config.rules, ru.name = r →
        ru.cooldown_secs.getD e.config.global.cooldown_secs = cool := by
      rw [hcfg]; exact hcool
    have hspec := checkRulesLoop_lastFired_spec e.config.global c.tx c.block_number
      c.flashblock_index c.now c.epoch_secs r cool e.config.rules e.last_fired
      (e.fires_this_minute.filter (fun f => decide (c.now - f < 60))) hcoolE
    cases hck : e.check c.tx c.block_number c.flashblock_index c.now c.epoch_secs with
    | mk alerts e' =>
      have halerts : alerts = (checkRulesLoop e.config.global c.tx c.block_number
          c.flashblock_index c.now c.epoch_secs e.config.rules e.last_fired
          (e.fires_this_minute.filter (fun f => decide (c.now - f < 60)))).alerts := by
        have := congrArg Prod.fst hck
        simpa [RuleEngine.check] using this.symm
      have he'lf : e'.last_fired = (checkRulesLoop e.config.global c.tx c.block_number
          c.flashblock_index c.now c.epoch_secs e.config.rules e.last_fired
          (e.fires_this_minute.filter (fun f => decide (c.now - f < 60)))).last_fired := by
        have := congrArg (fun p => (Prod.snd p).last_fired) hck
        simpa [RuleEngine.check] using this.symm
      have he'cfg : e'.config = cfg := by
        have := congrArg (fun p => (Prod.snd p).config) hck
        simp [RuleEngine.check] at this
        rw [← this]; exact hcfg
      set k := (alerts.filter (fun a => decide (a.rule_name = r))).length with hk
      have hrf : rFires r ((runCalls e (c :: rest)).1)
          = List.replicate k c.now ++ rFires r ((runCalls e' rest).1) := by
        simp only [runCalls, hck]
        cases hrc : runCalls e' rest with
        | mk trace e'' =>
          simp only [rFires, List.map_cons, List.flatten_cons]
          rw [show (alerts.filter (fun a => decide (a.rule_name = r))).map
              (fun _ => c.now) = List.replicate k c.now by simp [List.map_const', hk]]
      rw [hrf, ← List.append_assoc]
      by_cases hex : ∃ a ∈ alerts, a.rule_name = r
      · -- at least one fire of r at instant c.now
        have hk1 : 1 ≤ k := by
          obtain ⟨a, ha, har⟩ := hex
          have : a ∈ alerts.filter (fun a => decide (a.rule_name = r)) :=
            List.mem_filter.mpr ⟨ha, by simp [har]⟩
          have := List.length_pos.mpr (List.ne_nil_of_mem this)
          omega
        obtain ⟨hnew, hold⟩ := hspec.2 (by rw [← halerts]; exact hex)
        have hlast' : (Hr ++ List.replicate k c.now).getLast? = Option.some c.now := by
          rw [List.getLast?_append_of_ne_nil _ (by
            intro hnil
            rw [List.eq_nil_iff_forall_not_mem] at hnil
            have : (List.replicate k c.now).length = 0 := by
              cases hrep : List.replicate k c.now with
              | nil => simp
              | cons x xs => exact absurd (hrep ▸ List.mem_cons_self x xs) (hnil x)
            simp at this
            omega)]
          obtain ⟨k', hk'⟩ : ∃ k', k = k' + 1 := ⟨k - 1, by omega⟩
          rw [hk']
          exact getLast?_replicate_succ k' c.now
        have hsep : ∀ f ∈ Hr, f < c.now → (cool : ℚ) ≤ c.now - f := by
          intro f hf hflt
          rcases hold with hnone | ⟨last, hsome, hcd⟩
          · rw [hlf] at hnone
            rw [List.getLast?_eq_none_iff] at hnone
            subst hnone
            simp at hf
          · rw [hlf] at hsome
            have hfle : f ≤ last := hmax f hf last hsome
            linarith
        refine ih e' (Hr ++ List.replicate k c.now) c.now he'cfg hchain' ?_ ?_ ?_ ?_
        · rw [he'lf, hnew]
          exact hlast'.symm
        · intro f hf
          rcases List.mem_append.mp hf with hf' | hf'
          · exact le_trans (hle f hf') ht0
          · rw [List.eq_of_mem_replicate hf']
        · intro f hf g hg
          rw [hlast'] at hg
          cases hg
          rcases List.mem_append.mp hf with hf' | hf'
          · exact le_trans (hle f hf') ht0
          · rw [List.eq_of_mem_replicate hf']
        · refine List.pairwise_append.mpr ⟨hpw, ?_, ?_⟩
          · exact pairwise_replicate_of_refl k c.now _
              (fun hlt => absurd hlt (lt_irrefl c.now))
          · intro a ha b hb
            rw [List.eq_of_mem_replicate hb]
            intro hlt
            exact hsep a ha hlt
      · -- no fire of r in this call: the history is unchanged
        push_neg at hex
        have hk0 : k = 0 := by
          rw [hk]
          rw [List.length_eq_zero]
          rw [List.filter_eq_nil_iff]
          intro a ha
          simp [hex a ha]
        have hehist : lfGet e'.last_fired r = Hr.getLast? := by
          rw [he'lf]
          rw [hspec.1 (by
            rw [← halerts]
            intro a ha
            exact hex a ha)]
          exact hlf
        have := ih e' Hr c.now he'cfg hchain' hehist
          (fun f hf => le_trans (hle f hf) ht0) hmax hpw
        rw [hk0]
        simpa using this

/-- C3: for every rule name `r`, any two alerts for `r` emitted by a
sequence of `check` calls with nondecreasing monotonic instants
`t1 < t2` satisfy `t2 − t1 ≥` the effective cooldown of `r`, where the
effective cooldown is the per-rule `cooldown_secs` override if present
and the global cooldown otherwise (the hypothesis fixes that value as
`cool` for every rule named `r`; the serde default for the global value
is `default_cooldown = 10`). -/
theorem c3_per_rule_cooldown (cfg : RulesConfig) (r : String) (cool : Nat)
    (calls : List CallInput)
    (hcool : ∀ ru ∈ cfg.rules, ru.name = r →
      ru.cooldown_secs.getD cfg.global.cooldown_secs = cool)
    (hchain : List.Chain' (· ≤ ·) (calls.map CallInput.now)) :
    List.Pairwise (fun t1 t2 => t1 < t2 → (cool : ℚ) ≤ t2 - t1)
      (rFires r (callTrace cfg calls)) := by
  cases calls with
  | nil => simp [callTrace, runCalls, rFires]
  | cons c rest =>
    have hchain2 : List.Chain (· ≤ ·) c.now ((c :: rest).map CallInput.now) := by
      rw [List.map_cons, List.chain_cons]
      rw [List.map_cons] at hchain
      exact ⟨le_refl _, hchain⟩
    have := runCalls_cooldown_invariant cfg r cool hcool (c :: rest)
      (RuleEngine.new cfg) [] c.now rfl hchain2
      (by simp [RuleEngine.new, lfGet]) (by simp) (by simp) (by simp)
    simpa [callTrace] using this

/-- The configuration used by the C3 witness: one always-matching rule
with the global default cooldown of 10 s. -/
def c3WitnessCfg : RulesConfig :=
  ⟨[⟨"big", Trigger.LargeValue 0, Option.none, Option.none, true⟩], ⟨10, 30, 0, 30⟩⟩

/-- The call sequence used by the C3 witness: two matching transactions
5 s apart. -/
def c3WitnessCalls : List CallInput :=
  [⟨witnessTx, Option.none, 0, 0, 200⟩, ⟨witnessTx, Option.none, 1, 5, 205⟩]

/-- C3 witness: the cooldown statement at a concrete two-call
sequence (rule cooldown 10 s, calls 5 s apart). -/
theorem c3_witness :
    List.Pairwise (fun t1 t2 : ℚ => t1 < t2 → ((10 : Nat) : ℚ) ≤ t2 - t1)
      (rFires "big" (callTrace c3WitnessCfg c3WitnessCalls)) :=
  c3_per_rule_cooldown c3WitnessCfg "big" 10 c3WitnessCalls
    (by decide)
    (by
      have hmap : c3WitnessCalls.map CallInput.now = [(0 : ℚ), 5] := rfl
      rw [hmap]
      exact List.chain'_cons.mpr ⟨by norm_num, List.chain'_singleton 5⟩)

end Flashwatch
